import Mathlib

/-!
# goi18n merge: reconciliation, views and scanner

A shallow embedding of `goi18n/merge.go`.

Conventions of the embedding.

* A Go `string` is a Lean `String`; `len` is the UTF-8 byte size and slicing
  uses byte positions.
* A Go `map[string]V` is an association list (`GoMap V`).  The order of the
  list is the order in which a `range` loop produces the entries; statements
  are proved for every list, hence for every iteration order.
* The packages `bundle`, `locale` and `translation` are outside `merge.go`.
  The entry methods are taken as parameters (`TranslationOps`); entries are
  values and the methods are pure functions returning entries.
* Output on the console (`fmt.Printf`, `println`) is not modelled.
-/

namespace GoI18n

/-! ## Go maps -/

/-- A Go `map[string]V` as an association list; the first binding of a key
is the one that counts. -/
abbrev GoMap (V : Type) := List (String × V)

namespace GoMap

variable {V : Type}

/-- Map index expression `m[k]`; `none` stands for the zero value `nil`. -/
def get : GoMap V → String → Option V
  | [], _ => none
  | (k', v) :: rest, k => if k' = k then some v else get rest k

/-- Map assignment `m[k] = v`. -/
def set : GoMap V → String → V → GoMap V
  | [], k, v => [(k, v)]
  | (k', v') :: rest, k, v =>
    if k' = k then (k, v) :: rest else (k', v') :: set rest k v

/-- The keys of the map, in iteration order. -/
def keys (m : GoMap V) : List String := m.map Prod.fst

/-- The values of the map, in iteration order. -/
def values (m : GoMap V) : List V := m.map Prod.snd

/-- Apply `f` to every value (each value is a map object mutated in place by
the body of a `range` loop). -/
def mapValues {W : Type} (f : V → W) (m : GoMap V) : GoMap W :=
  m.map (fun kv => (kv.1, f kv.2))

end GoMap

/-! ## Collaborators -/

/-- The value `*locale.Locale`: its identifier and its language. -/
structure Locale (Lang : Type) where
  ID : String
  Language : Lang

/-- The methods of `translation.Translation` that `merge.go` calls, together
with the constructor `translation.NewTranslation` and `reflect.TypeOf`.
`T` is the type of (non-nil) entries, `Lang` of languages, `J` of the values
handed to the marshal function. -/
structure TranslationOps (T Lang J : Type) where
  /-- `t.ID()` -/
  ID : T → String
  /-- `reflect.TypeOf(t)`, the dynamic type of the entry, by name -/
  typeOf : T → String
  /-- `t.UntranslatedCopy()` -/
  UntranslatedCopy : T → T
  /-- `t.Normalize(language)` -/
  Normalize : T → Lang → T
  /-- `t.Incomplete(language)` -/
  Incomplete : T → Lang → Bool
  /-- `t.Backfill(src)`; `src` may be the nil interface value -/
  Backfill : T → Option T → T
  /-- `t.MarshalInterface()` -/
  MarshalInterface : T → J
  /-- `translation.NewTranslation` applied to the map with keys `"id"` and
  `"translation"`; it returns an entry or an error -/
  NewTranslation : String → String → Except String T

/-- The result of `bundle.Translations()`: locale identifier to catalog. -/
abbrev Bundle (T : Type) := GoMap (GoMap T)

/-! ## Cross-locale reconciliation (`execute`, lines 77 to 85) -/

section Reconcile

variable {T Lang J : Type}

/-- The body of the inner loop for one catalog:
`if dst := localeTranslations[translationID]; dst == nil ||
reflect.TypeOf(src) != reflect.TypeOf(dst)` then
`localeTranslations[translationID] = src.UntranslatedCopy()`. -/
def reconcileEntry (ops : TranslationOps T Lang J) (translationID : String) (src : T)
    (localeTranslations : GoMap T) : GoMap T :=
  match localeTranslations.get translationID with
  | none => localeTranslations.set translationID (ops.UntranslatedCopy src)
  | some dst =>
    if ops.typeOf src ≠ ops.typeOf dst then
      localeTranslations.set translationID (ops.UntranslatedCopy src)
    else localeTranslations

/-- One iteration of the outer loop, for the key `translationID` of the source
catalog.  `sourceTranslations` is the same map object as the catalog stored
under the source locale, so `src` is read from the current bundle; the inner
loop then visits every catalog of the bundle. -/
def reconcileStep (ops : TranslationOps T Lang J) (sourceLocaleID : String)
    (translations : Bundle T) (translationID : String) : Bundle T :=
  match (translations.get sourceLocaleID).bind (fun m => m.get translationID) with
  | none => translations
  | some src => translations.mapValues (reconcileEntry ops translationID src)

/-- The reconciliation loop.  When the bundle has no catalog for the source
locale, `sourceTranslations` is the nil map and the loop body never runs. -/
def reconcile (ops : TranslationOps T Lang J) (sourceLocaleID : String)
    (translations : Bundle T) : Bundle T :=
  match translations.get sourceLocaleID with
  | none => translations
  | some sourceTranslations =>
    sourceTranslations.keys.foldl (reconcileStep ops sourceLocaleID) translations

end Reconcile

/-! ## Views and output (`execute`, lines 87 to 105; `filter`; `writeFile`) -/

/-- How a run ends abnormally: an `error` value returned by `execute`, or a
run-time panic. -/
inductive Failure where
  | error (msg : String)
  | panic (msg : String)
  deriving DecidableEq, Repr

/-- The part of the outside world that `execute` changes or depends on for
its order of events: catalog files loaded so far and files written so far
(file name and payload), oldest first. -/
structure World where
  loaded : List String
  written : List (String × String)
  deriving DecidableEq, Repr

/-- The type `marshalFunc`: `func(interface{}) ([]byte, error)`. -/
abbrev marshalFunc (J : Type) := List J → Except String String

section Views

variable {T Lang J : Type}

/-- The function `filter`: ranges over the map, applies the callback and
appends every non-nil result. -/
def filter (translations : GoMap T) (f : T → Option T) : List T :=
  translations.foldl
    (fun filtered kv =>
      match f kv.2 with
      | some t => filtered ++ [t]
      | none => filtered)
    []

/-- The callback of the "all" view: `t.Normalize(locale.Language)`. -/
def allCallback (ops : TranslationOps T Lang J) (language : Lang) (t : T) : Option T :=
  some (ops.Normalize t language)

/-- The callback of the "untranslated" view: an incomplete entry yields
`t.Normalize(locale.Language).Backfill(sourceTranslations[t.ID()])`, any other
entry yields nil. -/
def untranslatedCallback (ops : TranslationOps T Lang J) (language : Lang)
    (sourceTranslations : GoMap T) (t : T) : Option T :=
  if ops.Incomplete t language then
    some (ops.Backfill (ops.Normalize t language) (sourceTranslations.get (ops.ID t)))
  else none

/-- The slice `all` of `execute`. -/
def allView (ops : TranslationOps T Lang J) (language : Lang)
    (localeTranslations : GoMap T) : List T :=
  filter localeTranslations (allCallback ops language)

/-- The slice `untranslated` of `execute`. -/
def untranslatedView (ops : TranslationOps T Lang J) (language : Lang)
    (sourceTranslations localeTranslations : GoMap T) : List T :=
  filter localeTranslations (untranslatedCallback ops language sourceTranslations)

/-- Modelled from the spec: `translation.SortableByID` and `sort.Sort` are not
part of `merge.go`.  The spec orders the output ascending by identifier,
lexicographically on the identifier text; this is the insertion step of a
sort with `Less(i, j)` being `ID(i) < ID(j)`. -/
def insertByID (ops : TranslationOps T Lang J) (t : T) : List T → List T
  | [] => [t]
  | u :: rest =>
    if ops.ID t ≤ ops.ID u then t :: u :: rest else u :: insertByID ops t rest

/-- Modelled from the spec: `sort.Sort(translation.SortableByID(translations))`,
the slice put in ascending order of identifier. -/
def sortByID (ops : TranslationOps T Lang J) : List T → List T
  | [] => []
  | t :: rest => insertByID ops t (sortByID ops rest)

/-- The function `marshalInterface`. -/
def marshalInterface (ops : TranslationOps T Lang J) (translations : List T) : List J :=
  translations.map ops.MarshalInterface

/-- The argument that `writeFile` hands to `marshal`: the slice is sorted in
place first, then converted by `marshalInterface`. -/
def marshalInput (ops : TranslationOps T Lang J) (translations : List T) : List J :=
  marshalInterface ops (sortByID ops translations)

end Views

/-! ## The scanner (`visitor`, `getTFuncName`, `Visit`, `parseAllFiles`) -/

/-- The kinds of `ast.BasicLit`. -/
inductive Token where
  | INT | FLOAT | IMAG | CHAR | STRING
  deriving DecidableEq, Repr

/-- Expressions of `go/ast`, as far as `merge.go` looks into them. -/
inductive Expr where
  | Ident (Name : String)
  | BasicLit (Kind : Token) (Value : String)
  | SelectorExpr (X : Expr) (Sel : String)
  | CallExpr (Fun : Expr) (Args : List Expr)
  | Other

/-- A node handed to `Visit`: an expression, an assignment statement, or any
other node (including the nil node that `ast.Walk` passes after a subtree). -/
inductive Node where
  | expr (e : Expr)
  | AssignStmt (Lhs Rhs : List Expr)
  | other

/-- The text `%s` prints for an expression: `*ast.Ident` has a `String` method
giving its name; every other expression is a pointer to a struct without one
and prints as a dump that begins with `&{`. -/
def Expr.format : Expr → String
  | .Ident Name => Name
  | _ => "&\x7b...\x7d"

/-- The type `visitor`.  `allStrings` is `none` for the nil slice. -/
structure visitor where
  allStrings : Option (List String)
  tFunc : String
  deriving DecidableEq, Repr

/-- The builtin `append` on a slice of strings that may be nil. -/
def goAppend (s : Option (List String)) (x : String) : Option (List String) :=
  some (s.getD [] ++ [x])

/-- Whether an expression of the right-hand side is a call whose callee is a
selector that formats as `i18n.MustTfunc`. -/
def isFactoryCall : Expr → Bool
  | .CallExpr (.SelectorExpr X Sel) _ => X.format ++ "." ++ Sel == "i18n.MustTfunc"
  | _ => false

/-- The function `getTFuncName`. -/
def getTFuncName (Lhs Rhs : List Expr) : String × Bool :=
  let name :=
    match Lhs with
    | .Ident Name :: _ => Name
    | _ => ""
  if Rhs.any isFactoryCall then (name, true) else ("", false)

/-- The body of the loop over `n.Args` in `Visit`: a basic literal of kind
`STRING` is appended, any other argument is skipped. -/
def collectArg (v : visitor) (a : Expr) : visitor :=
  match a with
  | .BasicLit Kind Value =>
    if Kind = Token.STRING then { v with allStrings := goAppend v.allStrings Value } else v
  | _ => v

/-- The loop over `n.Args` in `Visit`. -/
def collectArgs (v : visitor) (Args : List Expr) : visitor :=
  Args.foldl collectArg v

/-- The method `Visit`.  It always returns the receiver, so the result is the
updated visitor. -/
def visitor.Visit (v : visitor) (node : Node) : visitor :=
  match node with
  | .expr (.CallExpr Fun Args) =>
    if v.tFunc = "" ∨ v.allStrings = none then v
    else
      match Fun with
      | .Ident Name => if Name = v.tFunc then collectArgs v Args else v
      | _ => v
  | .AssignStmt Lhs Rhs =>
    if v.tFunc ≠ "" then v
    else
      match getTFuncName Lhs Rhs with
      | (tFunc, true) => { v with tFunc := tFunc }
      | (_, false) => v
  | _ => v

/-- The call `ast.Walk(v, f)` on a parsed file, given as the sequence of nodes
in the order in which the walk hands them to `Visit`. -/
def walk (v : visitor) (f : List Node) : visitor :=
  f.foldl visitor.Visit v

/-- The method `parseAllFiles` on files that parse, each given by its node
sequence. -/
def walkFiles (v : visitor) (files : List (List Node)) : visitor :=
  files.foldl walk v

/-- The method `parseAllFiles`: a file that fails to parse makes the run
panic. -/
def visitor.parseAllFiles (parseFile : String → Except String (List Node)) :
    visitor → List String → Except Failure visitor
  | v, [] => .ok v
  | v, fileName :: rest =>
    match parseFile fileName with
    | .error err => .error (.panic err)
    | .ok f => visitor.parseAllFiles parseFile (walk v f) rest

/-- The scanner phase of `execute` (lines 51 to 62) on parsed files: the
discovery walk, then, when an alias was found, the reset of the list and the
second walk. -/
def scanFiles (files : List (List Node)) : visitor :=
  let v : visitor := { allStrings := none, tFunc := "" }
  let v := walkFiles v files
  if v.tFunc ≠ "" then walkFiles { v with allStrings := some [] } files else v

/-! ## The command and its environment -/

/-- The type `mergeCommand`. -/
structure mergeCommand where
  translationFiles : List String
  sourceLocaleID : String
  outdir : String
  format : String
  sift : String
  deriving DecidableEq, Repr

/-- What `os.FileInfo.Mode()` says about a file. -/
inductive FileMode where
  | dir | regular | irregular
  deriving DecidableEq, Repr

/-- The collaborators of `execute` outside `merge.go`, as parameters. -/
structure Env (T Lang J : Type) where
  /-- `locale.New` -/
  localeNew : String → Except String (Locale Lang)
  /-- `json.MarshalIndent(v, "", "  ")` -/
  jsonMarshalIndent : marshalFunc J
  /-- `filepath.Join` of two elements -/
  filepathJoin : String → String → String
  /-- `bundle.LoadTranslationFile` -/
  LoadTranslationFile : Bundle T → String → Except String (Bundle T)
  /-- `os.Open` followed by `Stat` and `Mode` -/
  stat : String → Except String FileMode
  /-- the calls `filepath.Walk` makes to its callback for a root, in order -/
  walkDir : String → List (String × Except String FileMode)
  /-- `parser.ParseFile` followed by the node order of `ast.Walk` -/
  parseFile : String → Except String (List Node)
  /-- the error of `ioutil.WriteFile` for a file name, if it fails -/
  writeError : String → Option String

section Command

variable {T Lang J : Type}

/-- The function `isDir`. -/
def isDir (env : Env T Lang J) (file : String) : Except String Bool :=
  match env.stat file with
  | .error err => .error err
  | .ok FileMode.dir => .ok true
  | .ok FileMode.regular => .ok false
  | .ok FileMode.irregular => .ok false

/-- The callback of `filepath.Walk` in `getAllFiles`, run over the calls of
the walk; the walk stops at the first error the callback returns. -/
def collectGoFiles : List (String × Except String FileMode) → List String → List String
  | [], files => files
  | (_, .error _) :: _, files => files
  | (path, .ok mode) :: rest, files =>
    if mode = FileMode.regular ∧ path.endsWith ".go" then
      collectGoFiles rest (files ++ [path])
    else collectGoFiles rest files

/-- The function `getAllFiles`. -/
def getAllFiles (env : Env T Lang J) (siftParam : String) : List String :=
  match isDir env siftParam with
  | .ok true => collectGoFiles (env.walkDir siftParam) []
  | _ => [siftParam]

/-- The function `newMarshalFunc`. -/
def newMarshalFunc (env : Env T Lang J) (format : String) : Except String (marshalFunc J) :=
  if format = "json" then .ok env.jsonMarshalIndent
  else .error ("unsupported format: " ++ format ++ "\n")

/-- The method `writeFile`. -/
def writeFile (ops : TranslationOps T Lang J) (env : Env T Lang J) (mc : mergeCommand)
    (label : String) (translations : List T) (localeID : String) (marshal : marshalFunc J)
    (w : World) : World × Except Failure Unit :=
  match marshal (marshalInput ops translations) with
  | .error err =>
    (w, .error (.error ("failed to marshal " ++ localeID ++ " strings to " ++ mc.format ++
      " because " ++ err)))
  | .ok buf =>
    let filename := env.filepathJoin mc.outdir (localeID ++ "." ++ label ++ "." ++ mc.format)
    match env.writeError filename with
    | some err => (w, .error (.error ("failed to write " ++ filename ++ " because " ++ err)))
    | none => ({ w with written := w.written ++ [(filename, buf)] }, .ok ())

/-- The expression `str[1:len(str)-1]`: it panics unless `1 <= len(str)-1`. -/
def sliceInner (str : String) : Except Failure String :=
  if str.utf8ByteSize < 2 then .error (.panic "slice bounds out of range")
  else .ok (str.extract ⟨1⟩ ⟨str.utf8ByteSize - 1⟩)

/-- Modelled from the spec: `bundle.AddTranslation` is not part of `merge.go`.
The spec has the bundle cover the source locale, and has every identifier
not already present in the source locale catalog inserted as a new entry; an
identifier already present gets no new entry. -/
def AddTranslation (ops : TranslationOps T Lang J) (b : Bundle T) (locale : Locale Lang)
    (t : T) : Bundle T :=
  match b.get locale.ID with
  | none => b.set locale.ID [(ops.ID t, t)]
  | some currentTranslations =>
    match currentTranslations.get (ops.ID t) with
    | some _ => b
    | none => b.set locale.ID (currentTranslations.set (ops.ID t) t)

/-- One iteration of the insertion loop (lines 64 to 74).  When
`NewTranslation` fails `xlat` is nil and `xlat.ID()` panics; `locale.MustNew`
panics on an invalid identifier. -/
def insertString (ops : TranslationOps T Lang J) (env : Env T Lang J) (mc : mergeCommand)
    (bundle : Bundle T) (str : String) : Except Failure (Bundle T) :=
  match sliceInner str with
  | .error e => .error e
  | .ok id =>
    match ops.NewTranslation id "" with
    | .error _ => .error (.panic "nil pointer dereference")
    | .ok xlat =>
      match env.localeNew mc.sourceLocaleID with
      | .error err => .error (.panic err)
      | .ok locale => .ok (AddTranslation ops bundle locale xlat)

/-- The insertion loop `for _, str := range v.allStrings`. -/
def insertStrings (ops : TranslationOps T Lang J) (env : Env T Lang J) (mc : mergeCommand) :
    Bundle T → List String → Except Failure (Bundle T)
  | bundle, [] => .ok bundle
  | bundle, str :: rest =>
    match insertString ops env mc bundle str with
    | .error e => .error e
    | .ok bundle1 => insertStrings ops env mc bundle1 rest

/-- The scanner phase of `execute` (lines 51 to 62). -/
def scanPhase (env : Env T Lang J) (sift : String) : Except Failure visitor :=
  let allFiles := getAllFiles env sift
  match visitor.parseAllFiles env.parseFile { allStrings := none, tFunc := "" } allFiles with
  | .error e => .error e
  | .ok v =>
    if v.tFunc ≠ "" then
      visitor.parseAllFiles env.parseFile { v with allStrings := some [] } allFiles
    else .ok v

/-- The block guarded by `mc.sift != "<unspecified>"` (lines 50 to 75). -/
def siftPhase (ops : TranslationOps T Lang J) (env : Env T Lang J) (mc : mergeCommand)
    (bundle : Bundle T) : Except Failure (Bundle T) :=
  if mc.sift ≠ "<unspecified>" then
    match scanPhase env mc.sift with
    | .error e => .error e
    | .ok v => insertStrings ops env mc bundle (v.allStrings.getD [])
  else .ok bundle

/-- The loading loop (lines 43 to 48), starting from the bundle so far. -/
def loadFiles (env : Env T Lang J) :
    Bundle T → List String → World → World × Except Failure (Bundle T)
  | bundle, [], w => (w, .ok bundle)
  | bundle, tf :: rest, w =>
    let w1 : World := { w with loaded := w.loaded ++ [tf] }
    match env.LoadTranslationFile bundle tf with
    | .error err =>
      (w1, .error (.error ("failed to load translation file " ++ tf ++ " because " ++ err ++
        "\n")))
    | .ok bundle1 => loadFiles env bundle1 rest w1

/-- The output loop (lines 87 to 105) over the catalogs of the bundle. -/
def writeViews (ops : TranslationOps T Lang J) (env : Env T Lang J) (mc : mergeCommand)
    (marshal : marshalFunc J) (sourceTranslations : GoMap T) :
    Bundle T → World → World × Except Failure Unit
  | [], w => (w, .ok ())
  | (localeID, localeTranslations) :: rest, w =>
    match env.localeNew localeID with
    | .error err => (w, .error (.panic err))
    | .ok locale =>
      let all := allView ops locale.Language localeTranslations
      match writeFile ops env mc "all" all localeID marshal w with
      | (w1, .error e) => (w1, .error e)
      | (w1, .ok ()) =>
        let untranslated :=
          untranslatedView ops locale.Language sourceTranslations localeTranslations
        match writeFile ops env mc "untranslated" untranslated localeID marshal w1 with
        | (w2, .error e) => (w2, .error e)
        | (w2, .ok ()) => writeViews ops env mc marshal sourceTranslations rest w2

/-- The method `execute`. -/
def execute (ops : TranslationOps T Lang J) (env : Env T Lang J) (mc : mergeCommand)
    (w : World) : World × Except Failure Unit :=
  if mc.translationFiles.length < 1 then
    (w, .error (.error "need at least one translation file to parse"))
  else
    match env.localeNew mc.sourceLocaleID with
    | .error err =>
      (w, .error (.error ("invalid source locale " ++ mc.sourceLocaleID ++ ": " ++ err)))
    | .ok _ =>
      match newMarshalFunc env mc.format with
      | .error err => (w, .error (.error err))
      | .ok marshal =>
        match loadFiles env [] mc.translationFiles w with
        | (w1, .error e) => (w1, .error e)
        | (w1, .ok bundle) =>
          match siftPhase ops env mc bundle with
          | .error e => (w1, .error e)
          | .ok bundle1 =>
            let translations := reconcile ops mc.sourceLocaleID bundle1
            let sourceTranslations := (translations.get mc.sourceLocaleID).getD []
            writeViews ops env mc marshal sourceTranslations translations w1

end Command

/-! ## Auxiliary definitions for the statements -/

section Auxiliary

variable {T Lang J : Type}

/-- The entry a catalog holds under an identifier after the loop body has run
for it with source entry `src`, given what it held before (`none` when it
held nothing). -/
def settle (ops : TranslationOps T Lang J) (src : T) : Option T → T
  | none => ops.UntranslatedCopy src
  | some dst => if ops.typeOf src ≠ ops.typeOf dst then ops.UntranslatedCopy src else dst

/-- The effect of the whole loop on one catalog, for the keys `ks` of a source
catalog `sc` that stays as it is. -/
def reconcileCatalog (ops : TranslationOps T Lang J) (sc : GoMap T) (ks : List String)
    (c : GoMap T) : GoMap T :=
  ks.foldl
    (fun c i =>
      match sc.get i with
      | some src => reconcileEntry ops i src c
      | none => c)
    c

/-- The literal text of an argument that is a basic literal of kind `STRING`. -/
def stringLiteral : Expr → Option String
  | .BasicLit Token.STRING Value => some Value
  | _ => none

/-- The literals one visited node contributes for the alias `a`: the
string-literal arguments of a call expression whose callee is the identifier
`a`, nothing for any other node. -/
def callLiterals (a : String) : Node → List String
  | .expr (.CallExpr (.Ident Name) Args) =>
    if Name = a then Args.filterMap stringLiteral else []
  | _ => []

/-- Whether a node is an assignment that matches the factory-call pattern. -/
def matchesFactory : Node → Bool
  | .AssignStmt _ Rhs => Rhs.any isFactoryCall
  | _ => false

/-- The left-hand target that stands at the position of the first right-hand
expression that is a factory call. -/
def factoryTarget : List Expr → List Expr → Option Expr
  | l :: ls, r :: rs => if isFactoryCall r then some l else factoryTarget ls rs
  | _, _ => none

/-- The name `getTFuncName` returns for the first node, in walk order, that
matches the factory-call pattern; empty when no node matches. -/
def firstMatchName (nodes : List Node) : String :=
  match nodes.find? matchesFactory with
  | some (.AssignStmt Lhs Rhs) => (getTFuncName Lhs Rhs).1
  | _ => ""

/-- The alias a visited node yields to a visitor that has none: the name
`getTFuncName` returns for a matching assignment, when that name is not
empty. -/
def aliasOf : Node → Option String
  | .AssignStmt Lhs Rhs =>
    match getTFuncName Lhs Rhs with
    | (name, true) => if name = "" then none else some name
    | (_, false) => none
  | _ => none

/-- Discovery as a pure function of a node sequence: the first alias a node
yields, empty when there is none. -/
def discoverNodes (nodes : List Node) : String :=
  (nodes.findSome? aliasOf).getD ""

/-- Discovery as a pure function of the parsed files, in file order. -/
def discover (files : List (List Node)) : String :=
  discoverNodes files.flatten

/-- Collection as a pure function of the alias and the parsed files: with an
empty alias nothing is collected; otherwise the string-literal arguments of
every call of the alias, in file order, visit order and argument order. -/
def collect (a : String) (files : List (List Node)) : List String :=
  if a = "" then [] else files.flatMap (fun f => f.flatMap (callLiterals a))

/-- The entry a bundle holds for an identifier in the catalog of a locale. -/
def sourceEntry (b : Bundle T) (localeID : String) (id : String) : Option T :=
  (b.get localeID).bind (fun c => c.get id)

end Auxiliary

/-! ## A concrete instance for evaluating the definitions -/

/-- A small entry type: identifier, name of the dynamic type, text. -/
structure SampleEntry where
  id : String
  kind : String
  text : String
  deriving DecidableEq, Repr

/-- Entry methods on `SampleEntry`. -/
def sampleOps : TranslationOps SampleEntry String String where
  ID := fun t => t.id
  typeOf := fun t => t.kind
  UntranslatedCopy := fun t => ⟨t.id, t.kind, ""⟩
  Normalize := fun t _ => t
  Incomplete := fun t _ => t.text == ""
  Backfill := fun t src =>
    match src with
    | some s => if t.text = "" then ⟨t.id, t.kind, s.text⟩ else t
    | none => t
  MarshalInterface := fun t => t.id ++ "=" ++ t.text
  NewTranslation := fun id text => .ok ⟨id, "single", text⟩

/-- An environment for `sampleOps`: every locale identifier is valid and is
its own language, marshaling joins the items, nothing fails. -/
def sampleEnv : Env SampleEntry String String where
  localeNew := fun id => .ok ⟨id, id⟩
  jsonMarshalIndent := fun items => .ok (String.intercalate "," items)
  filepathJoin := fun dir name => dir ++ "/" ++ name
  LoadTranslationFile := fun b _ => .ok b
  stat := fun _ => .ok FileMode.regular
  walkDir := fun _ => []
  parseFile := fun _ => .ok []
  writeError := fun _ => none

/-- The environment `sampleEnv` in which every source file parses to the
given node sequence. -/
def sampleScanEnv (nodes : List Node) : Env SampleEntry String String :=
  { sampleEnv with parseFile := fun _ => .ok nodes }

/-- Nodes of a file with an assignment `T := i18n.MustTfunc("en-US")`, a call
`T("hello.world", x, 3)` and a call `U("no")`. -/
def sampleNodes : List Node :=
  [.AssignStmt [.Ident "T"]
     [.CallExpr (.SelectorExpr (.Ident "i18n") "MustTfunc") [.BasicLit .STRING "\"en-US\""]],
   .expr (.CallExpr (.Ident "T")
     [.BasicLit .STRING "\"hello.world\"", .Ident "x", .BasicLit .INT "3"]),
   .expr (.CallExpr (.Ident "U") [.BasicLit .STRING "\"no\""]),
   .other]

/-- Nodes of a file with an assignment `x := foo.Bar()` and a call
`T("hello")`, and no call of the factory. -/
def sampleNodesNoAlias : List Node :=
  [.AssignStmt [.Ident "x"] [.CallExpr (.SelectorExpr (.Ident "foo") "Bar") []],
   .expr (.CallExpr (.Ident "T") [.BasicLit .STRING "\"hello\""]),
   .other]

/-- Nodes of a file with the assignments `obj.T = i18n.MustTfunc("en-US")` and
`t := i18n.MustTfunc("en-US")`, in this order, and a call `t("late")`. -/
def sampleNodesTwoAliases : List Node :=
  [.AssignStmt [.SelectorExpr (.Ident "obj") "T"]
     [.CallExpr (.SelectorExpr (.Ident "i18n") "MustTfunc") [.BasicLit .STRING "\"en-US\""]],
   .AssignStmt [.Ident "t"]
     [.CallExpr (.SelectorExpr (.Ident "i18n") "MustTfunc") [.BasicLit .STRING "\"en-US\""]],
   .expr (.CallExpr (.Ident "t") [.BasicLit .STRING "\"late\""])]

/-- Nodes of a file with a call `T("early")` before the assignment
`T := i18n.MustTfunc("en-US")` and a call `T("late")` after it. -/
def sampleNodesCallFirst : List Node :=
  [.expr (.CallExpr (.Ident "T") [.BasicLit .STRING "\"early\""]),
   .AssignStmt [.Ident "T"]
     [.CallExpr (.SelectorExpr (.Ident "i18n") "MustTfunc") [.BasicLit .STRING "\"en-US\""]],
   .expr (.CallExpr (.Ident "T") [.BasicLit .STRING "\"late\""])]

/-- A command with source locale `en` and a sift path. -/
def sampleCommand : mergeCommand :=
  ⟨["en.all.json", "fr.all.json"], "en", "out", "json", "main.go"⟩

/-- A bundle with source locale `en` and a second locale `fr`. -/
def sampleBundle : Bundle SampleEntry :=
  [("en", [("greeting", ⟨"greeting", "single", "Hi"⟩), ("items", ⟨"items", "plural", "things"⟩)]),
   ("fr", [("items", ⟨"items", "single", "choses"⟩), ("adieu", ⟨"adieu", "single", "Adieu"⟩)])]

/-! ## Lemmas on Go maps -/

namespace GoMap

variable {V : Type}

theorem get_set_self (m : GoMap V) (k : String) (v : V) : (m.set k v).get k = some v := by
  induction m with
  | nil => simp [set, get]
  | cons p rest ih =>
    obtain ⟨k', v'⟩ := p
    by_cases h : k' = k
    · simp [set, get, h]
    · simp [set, get, h, ih]

theorem get_set_of_ne (m : GoMap V) {k j : String} (h : k ≠ j) (v : V) :
    (m.set k v).get j = m.get j := by
  induction m with
  | nil => simp [set, get, h]
  | cons p rest ih =>
    obtain ⟨k', v'⟩ := p
    by_cases hk : k' = k
    · subst hk
      simp [set, get, h]
    · by_cases hj : k' = j
      · subst hj
        simp [set, get, hk]
      · simp [set, get, hk, hj, ih]

theorem set_eq_self_of_get (m : GoMap V) {k : String} {v : V} (h : m.get k = some v) :
    m.set k v = m := by
  induction m with
  | nil => simp [get] at h
  | cons p rest ih =>
    obtain ⟨k', v'⟩ := p
    by_cases hk : k' = k
    · subst hk
      simp [get] at h
      simp [set, h]
    · simp [get, hk] at h
      simp [set, hk, ih h]

theorem get_mapValues {W : Type} (f : V → W) (m : GoMap V) (k : String) :
    (m.mapValues f).get k = (m.get k).map f := by
  induction m with
  | nil => simp [mapValues, get]
  | cons p rest ih =>
    obtain ⟨k', v'⟩ := p
    by_cases hk : k' = k
    · simp [mapValues, get, hk]
    · simp only [mapValues] at ih
      simp [mapValues, get, hk, ih]

theorem mapValues_mapValues {W X : Type} (f : V → W) (g : W → X) (m : GoMap V) :
    (m.mapValues f).mapValues g = m.mapValues (fun v => g (f v)) := by
  simp [mapValues, List.map_map, Function.comp_def]

theorem mapValues_congr {W : Type} {f g : V → W} (m : GoMap V)
    (h : ∀ p ∈ m, f p.2 = g p.2) : m.mapValues f = m.mapValues g := by
  unfold mapValues
  apply List.map_congr_left
  intro p hp
  rw [h p hp]

theorem mem_mapValues {W : Type} (f : V → W) (m : GoMap V) (k : String) (w : W) :
    (k, w) ∈ m.mapValues f ↔ ∃ v, (k, v) ∈ m ∧ f v = w := by
  simp only [mapValues, List.mem_map, Prod.mk.injEq, Prod.exists]
  constructor
  · rintro ⟨a, b, hab, rfl, rfl⟩
    exact ⟨b, hab, rfl⟩
  · rintro ⟨v, hv, rfl⟩
    exact ⟨k, v, hv, rfl, rfl⟩

theorem get_ne_none_iff_mem_keys (m : GoMap V) (k : String) :
    m.get k ≠ none ↔ k ∈ m.keys := by
  induction m with
  | nil => simp [get, keys]
  | cons p rest ih =>
    obtain ⟨k', v'⟩ := p
    by_cases hk : k' = k
    · simp [get, keys, hk]
    · simp only [keys] at ih
      have hk' : ¬ k = k' := fun h => hk h.symm
      simp [get, keys, hk, hk', ih]

theorem mem_of_get {m : GoMap V} {k : String} {v : V} (h : m.get k = some v) : (k, v) ∈ m := by
  induction m with
  | nil => simp [get] at h
  | cons p rest ih =>
    obtain ⟨k', v'⟩ := p
    by_cases hk : k' = k
    · subst hk
      simp [get] at h
      simp [h]
    · simp [get, hk] at h
      exact List.mem_cons_of_mem _ (ih h)

end GoMap

/-! ## Lemmas on reconciliation -/

section ReconcileLemmas

variable {T Lang J : Type}

theorem settle_settle (ops : TranslationOps T Lang J) (src : T) (od : Option T) :
    settle ops src (some (settle ops src od)) = settle ops src od := by
  cases od with
  | none => simp [settle]
  | some d =>
    by_cases h : ops.typeOf src = ops.typeOf d
    · simp [settle, h]
    · simp [settle, h]

theorem get_reconcileEntry_self (ops : TranslationOps T Lang J) (i : String) (src : T)
    (c : GoMap T) :
    (reconcileEntry ops i src c).get i = some (settle ops src (c.get i)) := by
  unfold reconcileEntry
  cases hget : c.get i with
  | none => simp [settle, GoMap.get_set_self]
  | some d =>
    by_cases h : ops.typeOf src = ops.typeOf d
    · simp [settle, h, hget]
    · simp [settle, h, GoMap.get_set_self]

theorem get_reconcileEntry_of_ne (ops : TranslationOps T Lang J) {i j : String} (h : i ≠ j)
    (src : T) (c : GoMap T) : (reconcileEntry ops i src c).get j = c.get j := by
  unfold reconcileEntry
  cases c.get i with
  | none => simp [GoMap.get_set_of_ne _ h]
  | some d =>
    by_cases ht : ops.typeOf src = ops.typeOf d
    · simp [ht]
    · simp [ht, GoMap.get_set_of_ne _ h]

theorem reconcileEntry_fixed (ops : TranslationOps T Lang J) {i : String} {src d : T}
    {c : GoMap T} (hget : c.get i = some d) (hd : settle ops src (some d) = d) :
    reconcileEntry ops i src c = c := by
  unfold reconcileEntry
  rw [hget]
  by_cases ht : ops.typeOf src = ops.typeOf d
  · simp [ht]
  · simp only [settle, ne_eq, ht, not_false_eq_true, if_true] at hd
    simp only [ne_eq, ht, not_false_eq_true, if_true]
    rw [hd]
    exact GoMap.set_eq_self_of_get c hget

theorem reconcileEntry_source (ops : TranslationOps T Lang J) {i : String} {src : T}
    {sc : GoMap T} (hget : sc.get i = some src) : reconcileEntry ops i src sc = sc :=
  reconcileEntry_fixed ops hget (by simp [settle])

theorem reconcileCatalog_cons (ops : TranslationOps T Lang J) (sc : GoMap T) (i : String)
    (ks : List String) (c : GoMap T) :
    reconcileCatalog ops sc (i :: ks) c =
      reconcileCatalog ops sc ks
        (match sc.get i with
         | some src => reconcileEntry ops i src c
         | none => c) := by
  simp [reconcileCatalog]

theorem reconcileCatalog_source (ops : TranslationOps T Lang J) (sc : GoMap T)
    (ks : List String) : reconcileCatalog ops sc ks sc = sc := by
  induction ks with
  | nil => simp [reconcileCatalog]
  | cons i ks ih =>
    rw [reconcileCatalog_cons]
    cases hget : sc.get i with
    | none => simpa using ih
    | some src =>
      simp only
      rw [reconcileEntry_source ops hget]
      exact ih

theorem foldl_reconcileStep (ops : TranslationOps T Lang J) (S : String) (sc : GoMap T)
    (ks : List String) (b : Bundle T) (hS : b.get S = some sc) :
    ks.foldl (reconcileStep ops S) b = b.mapValues (reconcileCatalog ops sc ks) := by
  induction ks generalizing b with
  | nil =>
    simp only [List.foldl_nil, GoMap.mapValues, reconcileCatalog]
    induction b with
    | nil => rfl
    | cons p rest _ => simp
  | cons i ks ih =>
    rw [List.foldl_cons]
    cases hget : sc.get i with
    | none =>
      have hstep : reconcileStep ops S b i = b := by
        simp [reconcileStep, hS, hget]
      rw [hstep, ih b hS]
      apply GoMap.mapValues_congr
      intro p _
      rw [reconcileCatalog_cons, hget]
    | some src =>
      have hstep : reconcileStep ops S b i = b.mapValues (reconcileEntry ops i src) := by
        simp [reconcileStep, hS, hget]
      have hS1 : (b.mapValues (reconcileEntry ops i src)).get S = some sc := by
        rw [GoMap.get_mapValues, hS]
        simp [reconcileEntry_source ops hget]
      rw [hstep, ih _ hS1, GoMap.mapValues_mapValues]
      apply GoMap.mapValues_congr
      intro p _
      rw [reconcileCatalog_cons, hget]

theorem reconcile_eq_mapValues (ops : TranslationOps T Lang J) (S : String) (sc : GoMap T)
    (b : Bundle T) (hS : b.get S = some sc) :
    reconcile ops S b = b.mapValues (reconcileCatalog ops sc sc.keys) := by
  unfold reconcile
  rw [hS]
  exact foldl_reconcileStep ops S sc sc.keys b hS

theorem get_reconcileCatalog (ops : TranslationOps T Lang J) (sc : GoMap T)
    (ks : List String) (c : GoMap T) (j : String) :
    (reconcileCatalog ops sc ks c).get j =
      if j ∈ ks then
        (match sc.get j with
         | some src => some (settle ops src (c.get j))
         | none => c.get j)
      else c.get j := by
  induction ks generalizing c with
  | nil => simp [reconcileCatalog]
  | cons i ks ih =>
    rw [reconcileCatalog_cons, ih]
    by_cases hij : i = j
    · subst hij
      cases hget : sc.get i with
      | none => simp
      | some src =>
        simp only [List.mem_cons, true_or, if_true]
        rw [get_reconcileEntry_self, settle_settle]
        simp
    · have hji : ¬ j = i := fun h => hij h.symm
      cases hget : sc.get i with
      | none => simp [hji]
      | some src =>
        simp only [List.mem_cons, hji, false_or]
        rw [get_reconcileEntry_of_ne ops hij]

theorem get_reconcileCatalog_keys (ops : TranslationOps T Lang J) (sc c : GoMap T)
    (j : String) :
    (reconcileCatalog ops sc sc.keys c).get j =
      match sc.get j with
      | some src => some (settle ops src (c.get j))
      | none => c.get j := by
  rw [get_reconcileCatalog]
  cases hget : sc.get j with
  | none => simp
  | some src =>
    have hmem : j ∈ sc.keys := (GoMap.get_ne_none_iff_mem_keys sc j).1 (by simp [hget])
    simp [hmem]

theorem reconcileCatalog_fixed (ops : TranslationOps T Lang J) (sc : GoMap T)
    (ks : List String) (c : GoMap T)
    (h : ∀ i ∈ ks, ∀ src, sc.get i = some src →
      ∃ d, c.get i = some d ∧ settle ops src (some d) = d) :
    reconcileCatalog ops sc ks c = c := by
  induction ks with
  | nil => simp [reconcileCatalog]
  | cons i ks ih =>
    rw [reconcileCatalog_cons]
    have ih1 := ih (fun k hk => h k (List.mem_cons_of_mem _ hk))
    cases hget : sc.get i with
    | none => simpa using ih1
    | some src =>
      obtain ⟨d, hd, hfix⟩ := h i (List.mem_cons_self _ _) src hget
      simp only
      rw [reconcileEntry_fixed ops hd hfix]
      exact ih1

end ReconcileLemmas

/-! ## Reconciliation: the claims -/

section ReconcileClaims

variable {T Lang J : Type}

/-- C1. Reconciliation completeness: when `UntranslatedCopy` returns an entry
of the same dynamic type as its receiver, then after the reconciliation loop
every catalog of the bundle has, for every identifier `i` of the source
catalog `B[S]`, an entry of the same dynamic type as the source entry. -/
theorem reconcile_complete (ops : TranslationOps T Lang J) (S : String) (B : Bundle T)
    (hUC : ∀ t, ops.typeOf (ops.UntranslatedCopy t) = ops.typeOf t)
    (sc : GoMap T) (hS : B.get S = some sc)
    (i : String) (src : T) (hi : sc.get i = some src)
    (L : String) (c' : GoMap T) (hL : (L, c') ∈ reconcile ops S B) :
    ∃ dst, c'.get i = some dst ∧ ops.typeOf dst = ops.typeOf src := by
  rw [reconcile_eq_mapValues ops S sc B hS, GoMap.mem_mapValues] at hL
  obtain ⟨c, _, rfl⟩ := hL
  refine ⟨settle ops src (c.get i), ?_, ?_⟩
  · rw [get_reconcileCatalog_keys, hi]
  · cases c.get i with
    | none => simp [settle, hUC]
    | some d =>
      by_cases h : ops.typeOf src = ops.typeOf d
      · simp [settle, h]
      · simp [settle, h, hUC]

/-- C1 at `sampleBundle`: the catalog of `fr` after reconciliation holds a
plural entry for `items`, as the source does. -/
theorem reconcile_complete_witness :
    ∃ dst : SampleEntry,
      GoMap.get
          [("items", (⟨"items", "plural", ""⟩ : SampleEntry)),
           ("adieu", ⟨"adieu", "single", "Adieu"⟩),
           ("greeting", ⟨"greeting", "single", ""⟩)] "items" = some dst ∧
        sampleOps.typeOf dst = sampleOps.typeOf ⟨"items", "plural", "things"⟩ :=
  reconcile_complete sampleOps "en" sampleBundle (fun _ => rfl)
    [("greeting", ⟨"greeting", "single", "Hi"⟩), ("items", ⟨"items", "plural", "things"⟩)]
    (by decide) "items" ⟨"items", "plural", "things"⟩ (by decide) "fr" _ (by decide)

/-- C2. Compatible entries are kept, missing or mismatched ones are replaced:
for a locale `L` with catalog `c` and an identifier `i` of the source catalog
with entry `src`, the catalog of `L` after reconciliation holds under `i` the
entry `c` held when that entry has the dynamic type of `src`, and holds
`src.UntranslatedCopy()` when `c` had no entry for `i` or one of another
dynamic type. -/
theorem reconcile_keeps_or_replaces (ops : TranslationOps T Lang J) (S : String)
    (B : Bundle T) (sc : GoMap T) (hS : B.get S = some sc)
    (i : String) (src : T) (hi : sc.get i = some src)
    (L : String) (c : GoMap T) (hL : B.get L = some c) :
    ∃ c', (reconcile ops S B).get L = some c' ∧
      (∀ dst, c.get i = some dst → ops.typeOf src = ops.typeOf dst → c'.get i = some dst) ∧
      ((c.get i = none ∨ ∃ dst, c.get i = some dst ∧ ops.typeOf src ≠ ops.typeOf dst) →
        c'.get i = some (ops.UntranslatedCopy src)) := by
  refine ⟨reconcileCatalog ops sc sc.keys c, ?_, ?_, ?_⟩
  · rw [reconcile_eq_mapValues ops S sc B hS, GoMap.get_mapValues, hL]
    rfl
  · intro dst hdst hty
    rw [get_reconcileCatalog_keys, hi, hdst]
    simp [settle, hty]
  · rintro (hnone | ⟨dst, hdst, hty⟩)
    · rw [get_reconcileCatalog_keys, hi, hnone]
      simp [settle]
    · rw [get_reconcileCatalog_keys, hi, hdst]
      simp [settle, hty]

/-- C2 at `sampleBundle`, locale `fr`, identifier `items`: the source entry is
plural, the entry of `fr` is singular and is replaced. -/
theorem reconcile_keeps_or_replaces_witness :
    ∃ c', (reconcile sampleOps "en" sampleBundle).get "fr" = some c' ∧
      (∀ dst,
        GoMap.get [("items", (⟨"items", "single", "choses"⟩ : SampleEntry)),
            ("adieu", ⟨"adieu", "single", "Adieu"⟩)] "items" = some dst →
          sampleOps.typeOf ⟨"items", "plural", "things"⟩ = sampleOps.typeOf dst →
          c'.get "items" = some dst) ∧
      ((GoMap.get [("items", (⟨"items", "single", "choses"⟩ : SampleEntry)),
            ("adieu", ⟨"adieu", "single", "Adieu"⟩)] "items" = none ∨
          ∃ dst,
            GoMap.get [("items", (⟨"items", "single", "choses"⟩ : SampleEntry)),
              ("adieu", ⟨"adieu", "single", "Adieu"⟩)] "items" = some dst ∧
            sampleOps.typeOf ⟨"items", "plural", "things"⟩ ≠ sampleOps.typeOf dst) →
        c'.get "items" =
          some (sampleOps.UntranslatedCopy ⟨"items", "plural", "things"⟩)) :=
  reconcile_keeps_or_replaces sampleOps "en" sampleBundle
    [("greeting", ⟨"greeting", "single", "Hi"⟩), ("items", ⟨"items", "plural", "things"⟩)]
    (by decide) "items" ⟨"items", "plural", "things"⟩ (by decide) "fr"
    [("items", ⟨"items", "single", "choses"⟩), ("adieu", ⟨"adieu", "single", "Adieu"⟩)]
    (by decide)

/-- C3. Idempotence: running the reconciliation loop on a bundle that has
already been reconciled for the same source locale leaves it as it is. -/
theorem reconcile_idempotent (ops : TranslationOps T Lang J) (S : String) (B : Bundle T) :
    reconcile ops S (reconcile ops S B) = reconcile ops S B := by
  cases hS : B.get S with
  | none =>
    have h : reconcile ops S B = B := by simp [reconcile, hS]
    rw [h, h]
  | some sc =>
    have h1 := reconcile_eq_mapValues ops S sc B hS
    have hS1 : (reconcile ops S B).get S = some sc := by
      rw [h1, GoMap.get_mapValues, hS]
      simp [reconcileCatalog_source]
    rw [reconcile_eq_mapValues ops S sc _ hS1, h1, GoMap.mapValues_mapValues]
    apply GoMap.mapValues_congr
    intro p _
    apply reconcileCatalog_fixed
    intro i _ src hsrc
    refine ⟨settle ops src (p.2.get i), ?_, settle_settle ops src _⟩
    rw [get_reconcileCatalog_keys, hsrc]

/-- C4, as stated, fails at `sampleBundle`: `adieu` is an identifier of the
catalog of `fr`, and after reconciliation with source `en` the catalog of `en`
still has no entry for it. -/
theorem union_coverage_counterexample :
    ¬ (∀ L c, (L, c) ∈ reconcile sampleOps "en" sampleBundle →
        ∀ L0 c0, (L0, c0) ∈ sampleBundle → ∀ i ∈ GoMap.keys c0, GoMap.get c i ≠ none) := by
  intro h
  exact h "en"
    [("greeting", ⟨"greeting", "single", "Hi"⟩), ("items", ⟨"items", "plural", "things"⟩)]
    (by decide) "fr"
    [("items", ⟨"items", "single", "choses"⟩), ("adieu", ⟨"adieu", "single", "Adieu"⟩)]
    (by decide) "adieu" (by decide) (by decide)

/-- C4, amended. Source coverage: after reconciliation the identifiers of the
catalog of a locale are exactly the identifiers it had before together with
the identifiers of the source catalog; identifiers of other catalogs are not
propagated. -/
theorem reconcile_identifier_sets (ops : TranslationOps T Lang J) (S : String)
    (B : Bundle T) (sc : GoMap T) (hS : B.get S = some sc)
    (L : String) (c : GoMap T) (hL : B.get L = some c) :
    ∃ c', (reconcile ops S B).get L = some c' ∧
      ∀ j, c'.get j ≠ none ↔ (c.get j ≠ none ∨ sc.get j ≠ none) := by
  refine ⟨reconcileCatalog ops sc sc.keys c, ?_, ?_⟩
  · rw [reconcile_eq_mapValues ops S sc B hS, GoMap.get_mapValues, hL]
    rfl
  · intro j
    rw [get_reconcileCatalog_keys]
    cases sc.get j with
    | none => simp
    | some src => simp

/-- C4 amended, at `sampleBundle` and locale `fr`. -/
theorem reconcile_identifier_sets_witness :
    ∃ c', (reconcile sampleOps "en" sampleBundle).get "fr" = some c' ∧
      ∀ j, c'.get j ≠ none ↔
        (GoMap.get [("items", (⟨"items", "single", "choses"⟩ : SampleEntry)),
            ("adieu", ⟨"adieu", "single", "Adieu"⟩)] j ≠ none ∨
          GoMap.get [("greeting", (⟨"greeting", "single", "Hi"⟩ : SampleEntry)),
            ("items", ⟨"items", "plural", "things"⟩)] j ≠ none) :=
  reconcile_identifier_sets sampleOps "en" sampleBundle _ (by decide) "fr" _ (by decide)

end ReconcileClaims

/-! ## Views and ordering: lemmas -/

section ViewLemmas

variable {T Lang J : Type}

theorem foldl_filter_step (f : T → Option T) (m : GoMap T) (acc : List T) :
    m.foldl
        (fun filtered kv =>
          match f kv.2 with
          | some t => filtered ++ [t]
          | none => filtered)
        acc =
      acc ++ m.filterMap (fun kv => f kv.2) := by
  induction m generalizing acc with
  | nil => simp
  | cons p rest ih =>
    rw [List.foldl_cons, ih]
    cases hf : f p.2 with
    | none => simp [List.filterMap_cons, hf]
    | some t => simp [List.filterMap_cons, hf]

theorem filter_eq_filterMap (m : GoMap T) (f : T → Option T) :
    filter m f = m.filterMap (fun kv => f kv.2) := by
  unfold filter
  rw [foldl_filter_step]
  simp

theorem filter_perm {m1 m2 : GoMap T} (h : m1.Perm m2) (f : T → Option T) :
    (filter m1 f).Perm (filter m2 f) := by
  rw [filter_eq_filterMap, filter_eq_filterMap]
  exact h.filterMap _

theorem allView_eq_map (ops : TranslationOps T Lang J) (lang : Lang) (C : GoMap T) :
    allView ops lang C = C.map (fun kv => ops.Normalize kv.2 lang) := by
  unfold allView
  rw [filter_eq_filterMap]
  induction C with
  | nil => rfl
  | cons p rest ih =>
    simp only [allCallback] at ih
    simp [List.filterMap_cons, allCallback, ih]

theorem untranslatedView_eq (ops : TranslationOps T Lang J) (lang : Lang)
    (src C : GoMap T) :
    untranslatedView ops lang src C =
      ((GoMap.values C).filter (fun E => ops.Incomplete E lang)).map
        (fun E => ops.Backfill (ops.Normalize E lang) (src.get (ops.ID E))) := by
  unfold untranslatedView
  rw [filter_eq_filterMap]
  induction C with
  | nil => rfl
  | cons p rest ih =>
    simp only [GoMap.values, untranslatedCallback] at ih
    cases hinc : ops.Incomplete p.2 lang with
    | false =>
      simp [List.filterMap_cons, untranslatedCallback, hinc, GoMap.values, List.filter_cons, ih]
    | true =>
      simp [List.filterMap_cons, untranslatedCallback, hinc, GoMap.values, List.filter_cons, ih]

theorem insertByID_perm (ops : TranslationOps T Lang J) (t : T) (l : List T) :
    (insertByID ops t l).Perm (t :: l) := by
  induction l with
  | nil => simp [insertByID]
  | cons u rest ih =>
    by_cases h : ops.ID t ≤ ops.ID u
    · simp [insertByID, h]
    · simp only [insertByID, h, if_false]
      exact (List.Perm.cons u ih).trans (List.Perm.swap t u rest)

theorem sortByID_perm (ops : TranslationOps T Lang J) (l : List T) :
    (sortByID ops l).Perm l := by
  induction l with
  | nil => simp [sortByID]
  | cons t rest ih =>
    simp only [sortByID]
    exact (insertByID_perm ops t _).trans (List.Perm.cons t ih)

theorem insertByID_pairwise (ops : TranslationOps T Lang J) (t : T) (l : List T)
    (h : l.Pairwise (fun a b => ops.ID a ≤ ops.ID b)) :
    (insertByID ops t l).Pairwise (fun a b => ops.ID a ≤ ops.ID b) := by
  induction l with
  | nil => simp [insertByID]
  | cons u rest ih =>
    rw [List.pairwise_cons] at h
    by_cases hle : ops.ID t ≤ ops.ID u
    · simp only [insertByID, hle, if_true]
      refine List.pairwise_cons.2 ⟨?_, List.pairwise_cons.2 h⟩
      intro x hx
      rcases List.mem_cons.1 hx with rfl | hx
      · exact hle
      · exact le_trans hle (h.1 x hx)
    · simp only [insertByID, hle, if_false]
      refine List.pairwise_cons.2 ⟨?_, ih h.2⟩
      intro x hx
      rcases List.mem_cons.1 ((insertByID_perm ops t rest).mem_iff.1 hx) with rfl | hx
      · exact le_of_not_le hle
      · exact h.1 x hx

theorem sortByID_pairwise (ops : TranslationOps T Lang J) (l : List T) :
    (sortByID ops l).Pairwise (fun a b => ops.ID a ≤ ops.ID b) := by
  induction l with
  | nil => simp [sortByID]
  | cons t rest ih => exact insertByID_pairwise ops t _ ih

theorem sorted_perm_unique (ops : TranslationOps T Lang J) {l1 l2 : List T}
    (hperm : l1.Perm l2)
    (h1 : l1.Pairwise (fun a b => ops.ID a ≤ ops.ID b))
    (h2 : l2.Pairwise (fun a b => ops.ID a ≤ ops.ID b))
    (hnd : (l1.map ops.ID).Nodup) : l1 = l2 := by
  have hnd2 : (l2.map ops.ID).Nodup := (hperm.map ops.ID).nodup_iff.1 hnd
  have strict : ∀ l : List T, l.Pairwise (fun a b => ops.ID a ≤ ops.ID b) →
      (l.map ops.ID).Nodup → l.Pairwise (fun a b => ops.ID a < ops.ID b) := by
    intro l hl hn
    have hne : l.Pairwise (fun a b => ops.ID a ≠ ops.ID b) := List.pairwise_map.1 hn
    exact (hl.and hne).imp (fun h => lt_of_le_of_ne h.1 h.2)
  haveI : IsAntisymm T (fun a b => ops.ID a < ops.ID b) :=
    ⟨fun _ _ hab hba => (lt_asymm hab hba).elim⟩
  exact List.eq_of_perm_of_sorted hperm (strict l1 h1 hnd) (strict l2 h2 hnd2)

theorem sortByID_eq_of_perm (ops : TranslationOps T Lang J) {l1 l2 : List T}
    (hperm : l1.Perm l2) (hnd : (l1.map ops.ID).Nodup) :
    sortByID ops l1 = sortByID ops l2 := by
  apply sorted_perm_unique ops
  · exact ((sortByID_perm ops l1).trans hperm).trans (sortByID_perm ops l2).symm
  · exact sortByID_pairwise ops l1
  · exact sortByID_pairwise ops l2
  · exact (((sortByID_perm ops l1).map ops.ID).nodup_iff).2 hnd

theorem writeFile_congr (ops : TranslationOps T Lang J) (env : Env T Lang J)
    (mc : mergeCommand) (label : String) {ts1 ts2 : List T} (localeID : String)
    (marshal : marshalFunc J) (w : World)
    (h : marshalInput ops ts1 = marshalInput ops ts2) :
    writeFile ops env mc label ts1 localeID marshal w =
      writeFile ops env mc label ts2 localeID marshal w := by
  unfold writeFile
  rw [h]

theorem allView_ids (ops : TranslationOps T Lang J) (lang : Lang) (C : GoMap T)
    (hN : ∀ t l, ops.ID (ops.Normalize t l) = ops.ID t) :
    (allView ops lang C).map ops.ID = C.map (fun kv => ops.ID kv.2) := by
  rw [allView_eq_map, List.map_map]
  apply List.map_congr_left
  intro p _
  simp [hN]

theorem untranslatedView_ids_nodup (ops : TranslationOps T Lang J) (lang : Lang)
    (src C : GoMap T)
    (hN : ∀ t l, ops.ID (ops.Normalize t l) = ops.ID t)
    (hB : ∀ t s, ops.ID (ops.Backfill t s) = ops.ID t)
    (hnd : (C.map (fun kv => ops.ID kv.2)).Nodup) :
    ((untranslatedView ops lang src C).map ops.ID).Nodup := by
  rw [untranslatedView_eq, List.map_map]
  have hmap : List.map
      (ops.ID ∘ fun E => ops.Backfill (ops.Normalize E lang) (src.get (ops.ID E)))
      ((GoMap.values C).filter (fun E => ops.Incomplete E lang)) =
      List.map ops.ID ((GoMap.values C).filter (fun E => ops.Incomplete E lang)) := by
    apply List.map_congr_left
    intro E _
    simp [hB, hN]
  rw [hmap]
  have hsub : (List.map ops.ID ((GoMap.values C).filter (fun E => ops.Incomplete E lang))).Sublist
      (List.map ops.ID (GoMap.values C)) := (List.filter_sublist _).map _
  have hvals : List.map ops.ID (GoMap.values C) = C.map (fun kv => ops.ID kv.2) := by
    simp [GoMap.values, List.map_map, Function.comp_def]
  rw [hvals] at hsub
  exact hnd.sublist hsub

end ViewLemmas

/-! ## Views and ordering: the claims -/

section ViewClaims

variable {T Lang J : Type}

/-- C5. Backfill correctness of the untranslated view: the view built by
`filter` is, in iteration order of the catalog, one element
`E.Normalize(L).Backfill(Src[E.ID()])` for each entry `E` with
`E.Incomplete(L)`, and nothing for the other entries; in particular its
length is the number of incomplete entries. -/
theorem untranslatedView_backfill (ops : TranslationOps T Lang J) (lang : Lang)
    (src C : GoMap T) :
    untranslatedView ops lang src C =
        ((GoMap.values C).filter (fun E => ops.Incomplete E lang)).map
          (fun E => ops.Backfill (ops.Normalize E lang) (src.get (ops.ID E))) ∧
      (untranslatedView ops lang src C).length =
        (GoMap.values C).countP (fun E => ops.Incomplete E lang) := by
  refine ⟨untranslatedView_eq ops lang src C, ?_⟩
  rw [untranslatedView_eq, List.length_map, List.countP_eq_length_filter]

/-- C6. Deterministic ordering.  For every marshal function, `writeFile`
hands to it the values `MarshalInterface` gives for a sequence `s` that is a
permutation of the sequence `writeFile` was given and ascending by
identifier, and its outcome is fixed by that call: the marshal error, or the
write error, or the world with the payload written under
`<localeID>.<label>.<format>` in the output directory.  For two iteration
orders `C1`, `C2` of a catalog whose entries carry pairwise distinct
identifiers (kept by `Normalize` and `Backfill`), the ascending permutations
of the "all" views coincide, and so do those of the "untranslated" views;
hence `writeFile` marshals the same sequence and has the same outcome for
either order. -/
theorem writeFile_deterministic_order (ops : TranslationOps T Lang J) (env : Env T Lang J)
    (mc : mergeCommand) (marshal : marshalFunc J) (lang : Lang) (src C1 C2 : GoMap T)
    (translations : List T)
    (hperm : C1.Perm C2) (hnodup : (C1.map (fun kv => ops.ID kv.2)).Nodup)
    (hN : ∀ t l, ops.ID (ops.Normalize t l) = ops.ID t)
    (hB : ∀ t s, ops.ID (ops.Backfill t s) = ops.ID t) :
    (∃ s : List T, s.Perm translations ∧
      s.Pairwise (fun a b => ops.ID a ≤ ops.ID b) ∧
      ∀ (label localeID : String) (w : World),
        writeFile ops env mc label translations localeID marshal w =
          match marshal (s.map ops.MarshalInterface) with
          | .error err =>
            (w, .error (.error ("failed to marshal " ++ localeID ++ " strings to " ++
              mc.format ++ " because " ++ err)))
          | .ok buf =>
            match env.writeError
                (env.filepathJoin mc.outdir (localeID ++ "." ++ label ++ "." ++ mc.format)) with
            | some err =>
              (w, .error (.error ("failed to write " ++
                env.filepathJoin mc.outdir (localeID ++ "." ++ label ++ "." ++ mc.format) ++
                " because " ++ err)))
            | none =>
              (⟨w.loaded, w.written ++
                [(env.filepathJoin mc.outdir (localeID ++ "." ++ label ++ "." ++ mc.format),
                  buf)]⟩, .ok ())) ∧
    ((∀ s1 s2 : List T, s1.Perm (allView ops lang C1) → s2.Perm (allView ops lang C2) →
        s1.Pairwise (fun a b => ops.ID a ≤ ops.ID b) →
        s2.Pairwise (fun a b => ops.ID a ≤ ops.ID b) → s1 = s2) ∧
      (∀ s1 s2 : List T, s1.Perm (untranslatedView ops lang src C1) →
        s2.Perm (untranslatedView ops lang src C2) →
        s1.Pairwise (fun a b => ops.ID a ≤ ops.ID b) →
        s2.Pairwise (fun a b => ops.ID a ≤ ops.ID b) → s1 = s2)) ∧
    (marshalInput ops translations = marshalInterface ops (sortByID ops translations) ∧
      (sortByID ops translations).Perm translations ∧
      (sortByID ops translations).Pairwise (fun a b => ops.ID a ≤ ops.ID b)) ∧
    (marshalInput ops (allView ops lang C1) = marshalInput ops (allView ops lang C2) ∧
      marshalInput ops (untranslatedView ops lang src C1) =
        marshalInput ops (untranslatedView ops lang src C2)) ∧
    (∀ (localeID : String) (w : World),
      writeFile ops env mc "all" (allView ops lang C1) localeID marshal w =
          writeFile ops env mc "all" (allView ops lang C2) localeID marshal w ∧
        writeFile ops env mc "untranslated" (untranslatedView ops lang src C1) localeID
            marshal w =
          writeFile ops env mc "untranslated" (untranslatedView ops lang src C2) localeID
            marshal w) := by
  have hndAll : ((allView ops lang C1).map ops.ID).Nodup := by
    rw [allView_ids ops lang C1 hN]
    exact hnodup
  have hndUnt : ((untranslatedView ops lang src C1).map ops.ID).Nodup :=
    untranslatedView_ids_nodup ops lang src C1 hN hB hnodup
  have hpAll : (allView ops lang C1).Perm (allView ops lang C2) :=
    filter_perm hperm (allCallback ops lang)
  have hpUnt : (untranslatedView ops lang src C1).Perm (untranslatedView ops lang src C2) :=
    filter_perm hperm (untranslatedCallback ops lang src)
  have hall : marshalInput ops (allView ops lang C1) = marshalInput ops (allView ops lang C2) :=
    congrArg (marshalInterface ops) (sortByID_eq_of_perm ops hpAll hndAll)
  have hunt : marshalInput ops (untranslatedView ops lang src C1) =
      marshalInput ops (untranslatedView ops lang src C2) :=
    congrArg (marshalInterface ops) (sortByID_eq_of_perm ops hpUnt hndUnt)
  refine ⟨⟨sortByID ops translations, sortByID_perm ops translations,
      sortByID_pairwise ops translations, ?_⟩, ⟨?_, ?_⟩,
    ⟨rfl, sortByID_perm ops translations, sortByID_pairwise ops translations⟩,
    ⟨hall, hunt⟩, ?_⟩
  · intro label localeID w
    simp only [writeFile, marshalInput, marshalInterface]
  · intro s1 s2 h1 h2 hs1 hs2
    exact sorted_perm_unique ops ((h1.trans hpAll).trans h2.symm) hs1 hs2
      (((h1.map ops.ID).nodup_iff).2 hndAll)
  · intro s1 s2 h1 h2 hs1 hs2
    exact sorted_perm_unique ops ((h1.trans hpUnt).trans h2.symm) hs1 hs2
      (((h1.map ops.ID).nodup_iff).2 hndUnt)
  · intro localeID w
    exact ⟨writeFile_congr ops env mc "all" localeID marshal w hall,
      writeFile_congr ops env mc "untranslated" localeID marshal w hunt⟩

/-- C6 at a catalog with entries `b` and `a`, in either iteration order: the
outcome of `writeFile` for the "all" view is the same. -/
theorem writeFile_deterministic_order_witness :
    writeFile sampleOps sampleEnv ⟨["fr.json"], "en", "out", "json", ""⟩ "all"
        (allView sampleOps "fr"
          [("b", (⟨"b", "single", ""⟩ : SampleEntry)), ("a", ⟨"a", "single", "x"⟩)])
        "fr" sampleEnv.jsonMarshalIndent ⟨[], []⟩ =
      writeFile sampleOps sampleEnv ⟨["fr.json"], "en", "out", "json", ""⟩ "all"
        (allView sampleOps "fr"
          [("a", (⟨"a", "single", "x"⟩ : SampleEntry)), ("b", ⟨"b", "single", ""⟩)])
        "fr" sampleEnv.jsonMarshalIndent ⟨[], []⟩ :=
  ((writeFile_deterministic_order sampleOps sampleEnv ⟨["fr.json"], "en", "out", "json", ""⟩
    sampleEnv.jsonMarshalIndent "fr"
    [("b", ⟨"b", "single", "Salut"⟩)]
    [("b", ⟨"b", "single", ""⟩), ("a", ⟨"a", "single", "x"⟩)]
    [("a", ⟨"a", "single", "x"⟩), ("b", ⟨"b", "single", ""⟩)]
    [⟨"b", "single", ""⟩, ⟨"a", "single", "x"⟩]
    (List.Perm.swap _ _ _) (by decide) (fun _ _ => rfl)
    (fun t s => by
      cases s with
      | none => rfl
      | some s =>
        simp only [sampleOps]
        split <;> rfl)).2.2.2.2 "fr" ⟨[], []⟩).1

end ViewClaims

/-! ## The scanner: lemmas -/

theorem visit_without_match (v : visitor) (n : Node) (hv : v.tFunc = "")
    (hn : matchesFactory n = false) : v.Visit n = v := by
  cases n with
  | expr e =>
    cases e with
    | CallExpr Fun Args => simp [visitor.Visit, hv]
    | Ident Name => rfl
    | BasicLit Kind Value => rfl
    | SelectorExpr X Sel => rfl
    | Other => rfl
  | AssignStmt Lhs Rhs =>
    simp only [matchesFactory] at hn
    simp [visitor.Visit, hv, getTFuncName, hn]
  | other => rfl

theorem walk_without_match (v : visitor) (f : List Node) (hv : v.tFunc = "")
    (hf : ∀ n ∈ f, matchesFactory n = false) : walk v f = v := by
  induction f with
  | nil => rfl
  | cons n rest ih =>
    simp only [walk, List.foldl_cons] at ih ⊢
    rw [visit_without_match v n hv (hf n (List.mem_cons_self _ _))]
    exact ih (fun m hm => hf m (List.mem_cons_of_mem _ hm))

theorem walkFiles_without_match (v : visitor) (files : List (List Node)) (hv : v.tFunc = "")
    (hno : ∀ f ∈ files, ∀ n ∈ f, matchesFactory n = false) : walkFiles v files = v := by
  induction files with
  | nil => rfl
  | cons f rest ih =>
    simp only [walkFiles, List.foldl_cons] at ih ⊢
    rw [walk_without_match v f hv (hno f (List.mem_cons_self _ _))]
    exact ih (fun g hg => hno g (List.mem_cons_of_mem _ hg))

theorem parseAllFiles_eq_walkFiles (parseFile : String → Except String (List Node))
    (v : visitor) (names : List String) (files : List (List Node))
    (h : List.Forall₂ (fun name f => parseFile name = .ok f) names files) :
    visitor.parseAllFiles parseFile v names = .ok (walkFiles v files) := by
  induction h generalizing v with
  | nil => rfl
  | cons hhead _ ih =>
    simp only [visitor.parseAllFiles, hhead, walkFiles, List.foldl_cons]
    exact ih _

theorem collectArg_eq (a : String) (acc : List String) (e : Expr) :
    collectArg { allStrings := some acc, tFunc := a } e =
      { allStrings := some (acc ++ (stringLiteral e).toList), tFunc := a } := by
  cases e with
  | BasicLit Kind Value => cases Kind <;> simp [collectArg, stringLiteral, goAppend]
  | Ident Name => simp [collectArg, stringLiteral]
  | SelectorExpr X Sel => simp [collectArg, stringLiteral]
  | CallExpr Fun Args => simp [collectArg, stringLiteral]
  | Other => simp [collectArg, stringLiteral]

theorem collectArgs_eq (a : String) (acc : List String) (Args : List Expr) :
    collectArgs { allStrings := some acc, tFunc := a } Args =
      { allStrings := some (acc ++ Args.filterMap stringLiteral), tFunc := a } := by
  induction Args generalizing acc with
  | nil => simp [collectArgs]
  | cons e rest ih =>
    simp only [collectArgs, List.foldl_cons] at ih ⊢
    rw [collectArg_eq, ih]
    cases h : stringLiteral e <;> simp [List.filterMap_cons, h]

theorem visit_with_alias (a : String) (ha : a ≠ "") (acc : List String) (n : Node) :
    visitor.Visit { allStrings := some acc, tFunc := a } n =
      { allStrings := some (acc ++ callLiterals a n), tFunc := a } := by
  cases n with
  | expr e =>
    cases e with
    | CallExpr Fun Args =>
      cases Fun with
      | Ident Name =>
        by_cases hname : Name = a
        · simp [visitor.Visit, ha, hname, callLiterals, collectArgs_eq]
        · simp [visitor.Visit, ha, hname, callLiterals]
      | BasicLit Kind Value => simp [visitor.Visit, ha, callLiterals]
      | SelectorExpr X Sel => simp [visitor.Visit, ha, callLiterals]
      | CallExpr Fun2 Args2 => simp [visitor.Visit, ha, callLiterals]
      | Other => simp [visitor.Visit, ha, callLiterals]
    | Ident Name => simp [visitor.Visit, callLiterals]
    | BasicLit Kind Value => simp [visitor.Visit, callLiterals]
    | SelectorExpr X Sel => simp [visitor.Visit, callLiterals]
    | Other => simp [visitor.Visit, callLiterals]
  | AssignStmt Lhs Rhs => simp [visitor.Visit, ha, callLiterals]
  | other => simp [visitor.Visit, callLiterals]

theorem walk_with_alias (a : String) (ha : a ≠ "") (acc : List String) (nodes : List Node) :
    walk { allStrings := some acc, tFunc := a } nodes =
      { allStrings := some (acc ++ nodes.flatMap (callLiterals a)), tFunc := a } := by
  induction nodes generalizing acc with
  | nil => simp [walk]
  | cons n rest ih =>
    simp only [walk, List.foldl_cons] at ih ⊢
    rw [visit_with_alias a ha, ih]
    simp [List.flatMap_cons, List.append_assoc]

/-! ## The scanner: the claims -/

/-- C7. Alias before collection: when no assignment in the parsed files has a
right-hand side that is a call of `i18n.MustTfunc`, the scanner phase of
`execute` ends with no alias and no collected literal, and the sift block
leaves the bundle as it was, whatever call expressions the files contain. -/
theorem scan_without_factory_assignment {T Lang J : Type} (ops : TranslationOps T Lang J)
    (env : Env T Lang J) (mc : mergeCommand) (bundle : Bundle T) (files : List (List Node))
    (hsift : mc.sift ≠ "<unspecified>")
    (hparse : List.Forall₂ (fun name f => env.parseFile name = .ok f)
      (getAllFiles env mc.sift) files)
    (hno : ∀ f ∈ files, ∀ n ∈ f, matchesFactory n = false) :
    scanFiles files = { allStrings := none, tFunc := "" } ∧
      scanPhase env mc.sift = .ok { allStrings := none, tFunc := "" } ∧
      siftPhase ops env mc bundle = .ok bundle := by
  have hwalk : walkFiles { allStrings := none, tFunc := "" } files =
      { allStrings := none, tFunc := "" } := walkFiles_without_match _ files rfl hno
  have hscan : scanPhase env mc.sift = .ok { allStrings := none, tFunc := "" } := by
    simp [scanPhase, parseAllFiles_eq_walkFiles env.parseFile _ _ files hparse, hwalk]
  refine ⟨?_, hscan, ?_⟩
  · simp [scanFiles, hwalk]
  · simp [siftPhase, hsift, hscan, insertStrings]

/-- C7 at a file with a call `T("hello")` and no factory assignment. -/
theorem scan_without_factory_assignment_witness :
    scanFiles [sampleNodesNoAlias] = { allStrings := none, tFunc := "" } ∧
      scanPhase (sampleScanEnv sampleNodesNoAlias) sampleCommand.sift =
        .ok { allStrings := none, tFunc := "" } ∧
      siftPhase sampleOps (sampleScanEnv sampleNodesNoAlias) sampleCommand sampleBundle =
        .ok sampleBundle :=
  scan_without_factory_assignment sampleOps (sampleScanEnv sampleNodesNoAlias) sampleCommand
    sampleBundle [sampleNodesNoAlias] (by decide) (List.Forall₂.cons rfl List.Forall₂.nil)
    (by decide)

/-- C8. Literal collection: with a non-empty alias `a` and an empty, non-nil
list to start with, the list after the walk is the concatenation, in visit
order, of the string-literal arguments (in argument order) of the call
expressions whose callee is the identifier `a`; the alias is unchanged. -/
theorem walk_collects_literals (a : String) (ha : a ≠ "") (nodes : List Node) :
    walk { allStrings := some [], tFunc := a } nodes =
      { allStrings := some (nodes.flatMap (callLiterals a)), tFunc := a } := by
  simpa using walk_with_alias a ha [] nodes

/-- C8 at `sampleNodes` with alias `T`: only `"hello.world"` is collected. -/
theorem walk_collects_literals_witness :
    walk { allStrings := some [], tFunc := "T" } sampleNodes =
      { allStrings := some ["\"hello.world\""], tFunc := "T" } :=
  walk_collects_literals "T" (by decide) sampleNodes

/-! ## Insertion of discovered identifiers: lemmas -/

section InsertLemmas

variable {T Lang J : Type}

theorem sourceEntry_AddTranslation (ops : TranslationOps T Lang J) (b : Bundle T)
    (locale : Locale Lang) (t : T) (j : String) :
    sourceEntry (AddTranslation ops b locale t) locale.ID j =
      if j = ops.ID t then some ((sourceEntry b locale.ID j).getD t)
      else sourceEntry b locale.ID j := by
  unfold AddTranslation sourceEntry
  cases hcat : b.get locale.ID with
  | none =>
    simp only [GoMap.get_set_self, Option.bind_some, Option.bind_none]
    by_cases hj : j = ops.ID t
    · subst hj
      simp [GoMap.get]
    · have hj' : ¬ ops.ID t = j := fun h => hj h.symm
      simp [GoMap.get, hj, hj']
  | some cur =>
    cases hcur : cur.get (ops.ID t) with
    | some e =>
      by_cases hj : j = ops.ID t
      · subst hj
        simp [hcat, hcur]
      · simp [hcat, hcur, hj]
    | none =>
      by_cases hj : j = ops.ID t
      · subst hj
        simp [GoMap.get_set_self, hcur]
      · have hj' : ops.ID t ≠ j := fun h => hj h.symm
        simp [hcur, GoMap.get_set_self, GoMap.get_set_of_ne _ hj', hj]

theorem sliceInner_ok (str : String) (h : 2 ≤ str.utf8ByteSize) :
    sliceInner str = .ok (str.extract ⟨1⟩ ⟨str.utf8ByteSize - 1⟩) := by
  have h' : ¬ str.utf8ByteSize < 2 := Nat.not_lt.2 h
  simp [sliceInner, h']

theorem insertStrings_spec (ops : TranslationOps T Lang J) (env : Env T Lang J)
    (mc : mergeCommand) (locale : Locale Lang)
    (hloc : env.localeNew mc.sourceLocaleID = .ok locale)
    (hNew : ∀ id, ∃ t, ops.NewTranslation id "" = .ok t ∧ ops.ID t = id)
    (strs : List String) (hlen : ∀ str ∈ strs, 2 ≤ str.utf8ByteSize) (b : Bundle T) :
    ∃ b', insertStrings ops env mc b strs = .ok b' ∧
      (∀ j e, sourceEntry b locale.ID j = some e → sourceEntry b' locale.ID j = some e) ∧
      (∀ str ∈ strs, ∀ id, sliceInner str = .ok id →
        ∃ e, sourceEntry b' locale.ID id = some e ∧
          (sourceEntry b locale.ID id = none → ops.NewTranslation id "" = .ok e)) ∧
      (∀ j e, sourceEntry b' locale.ID j = some e →
        sourceEntry b locale.ID j = some e ∨
          (sourceEntry b locale.ID j = none ∧
            ∃ str ∈ strs, sliceInner str = .ok j ∧ ops.NewTranslation j "" = .ok e)) := by
  induction strs generalizing b with
  | nil =>
    refine ⟨b, rfl, fun _ _ h => h, ?_, fun _ _ h => Or.inl h⟩
    intro str hstr
    simp at hstr
  | cons str rest ih =>
    have hstr := sliceInner_ok str (hlen str (List.mem_cons_self _ _))
    obtain ⟨xlat, hx, hid⟩ := hNew (str.extract ⟨1⟩ ⟨str.utf8ByteSize - 1⟩)
    generalize hid0 : str.extract ⟨1⟩ ⟨str.utf8ByteSize - 1⟩ = id0 at hstr hx hid
    have hstep : insertString ops env mc b str = .ok (AddTranslation ops b locale xlat) := by
      simp [insertString, hstr, hx, hloc]
    obtain ⟨b', hrun, hframe, hnew, honly⟩ :=
      ih (fun s hs => hlen s (List.mem_cons_of_mem _ hs)) (AddTranslation ops b locale xlat)
    have hadd := sourceEntry_AddTranslation ops b locale xlat
    rw [hid] at hadd
    have hadd0 : sourceEntry (AddTranslation ops b locale xlat) locale.ID id0 =
        some ((sourceEntry b locale.ID id0).getD xlat) := by
      rw [hadd]
      simp
    have haddne : ∀ j, j ≠ id0 → sourceEntry (AddTranslation ops b locale xlat) locale.ID j =
        sourceEntry b locale.ID j := by
      intro j hj
      rw [hadd]
      simp [hj]
    have hframe1 : ∀ j e, sourceEntry b locale.ID j = some e →
        sourceEntry (AddTranslation ops b locale xlat) locale.ID j = some e := by
      intro j e hje
      by_cases hj : j = id0
      · subst hj
        rw [hadd0, hje]
        rfl
      · rw [haddne j hj, hje]
    refine ⟨b', ?_, ?_, ?_, ?_⟩
    · simp [insertStrings, hstep, hrun]
    · intro j e hje
      exact hframe j e (hframe1 j e hje)
    · intro s hs id hsid
      rcases List.mem_cons.1 hs with rfl | hs
      · rw [hstr] at hsid
        cases hsid
        refine ⟨(sourceEntry b locale.ID id0).getD xlat, hframe _ _ hadd0, ?_⟩
        intro hnone
        rw [hnone]
        exact hx
      · obtain ⟨e, he, hfresh⟩ := hnew s hs id hsid
        refine ⟨e, he, ?_⟩
        intro hnone
        by_cases hj : id = id0
        · subst hj
          have h1 := hframe _ _ hadd0
          rw [hnone] at h1
          simp only [Option.getD_none] at h1
          rw [he] at h1
          cases h1
          exact hx
        · apply hfresh
          rw [haddne id hj, hnone]
    · intro j e hje
      rcases honly j e hje with h1 | ⟨h1, s, hs, hsj, hsn⟩
      · by_cases hj : j = id0
        · subst hj
          rw [hadd0] at h1
          cases hold : sourceEntry b locale.ID j with
          | some e0 =>
            rw [hold] at h1
            simp only [Option.getD_some, Option.some.injEq] at h1
            left
            rw [h1]
          | none =>
            rw [hold] at h1
            simp only [Option.getD_none, Option.some.injEq] at h1
            right
            refine ⟨rfl, str, List.mem_cons_self _ _, hstr, ?_⟩
            rw [← h1]
            exact hx
        · left
          rw [← haddne j hj]
          exact h1
      · have hj : j ≠ id0 := by
          intro hj
          subst hj
          rw [hadd0] at h1
          cases h1
        right
        refine ⟨?_, s, List.mem_cons_of_mem _ hs, hsj, hsn⟩
        rw [← haddne j hj]
        exact h1

end InsertLemmas

/-! ## Insertion of discovered identifiers: the claims -/

section InsertClaims

variable {T Lang J : Type}

/-- C9. Discovered identifiers are inserted: when the source locale is valid,
every collected literal is a string-literal token (at least two bytes) and
`NewTranslation` builds an entry with the identifier it is given, the
insertion loop ends normally, and afterwards the catalog of the source locale
has an entry for the identifier of every collected literal; an identifier
that had no entry before maps to the entry `NewTranslation` builds from that
identifier and the empty text. -/
theorem insertStrings_inserts (ops : TranslationOps T Lang J) (env : Env T Lang J)
    (mc : mergeCommand) (locale : Locale Lang) (strs : List String) (b : Bundle T)
    (hloc : env.localeNew mc.sourceLocaleID = .ok locale)
    (hNew : ∀ id, ∃ t, ops.NewTranslation id "" = .ok t ∧ ops.ID t = id)
    (hlen : ∀ str ∈ strs, 2 ≤ str.utf8ByteSize) :
    ∃ b', insertStrings ops env mc b strs = .ok b' ∧
      ∀ str ∈ strs, ∀ id, sliceInner str = .ok id →
        ∃ e, sourceEntry b' locale.ID id = some e ∧
          (sourceEntry b locale.ID id = none → ops.NewTranslation id "" = .ok e) := by
  obtain ⟨b', hrun, _, hnew, _⟩ := insertStrings_spec ops env mc locale hloc hNew strs hlen b
  exact ⟨b', hrun, hnew⟩

/-- C9 at `sampleBundle` with the literals `"greeting"` and `"bye"`. -/
theorem insertStrings_inserts_witness :
    ∃ b', insertStrings sampleOps sampleEnv sampleCommand sampleBundle
        ["\"greeting\"", "\"bye\""] = .ok b' ∧
      ∀ str ∈ ["\"greeting\"", "\"bye\""], ∀ id, sliceInner str = .ok id →
        ∃ e, sourceEntry b' "en" id = some e ∧
          (sourceEntry sampleBundle "en" id = none →
            sampleOps.NewTranslation id "" = .ok e) :=
  insertStrings_inserts sampleOps sampleEnv sampleCommand ⟨"en", "en"⟩
    ["\"greeting\"", "\"bye\""] sampleBundle rfl (fun _ => ⟨_, rfl, rfl⟩) (by decide)

/-- C10. Insertion does not overwrite: under the same assumptions the
insertion loop ends normally, every entry the catalog of the source locale
held before is still there unchanged, whatever its dynamic type, and every
entry it holds afterwards is either such an old entry or the new entry of a
collected literal whose identifier had no entry before. -/
theorem insertStrings_keeps_existing (ops : TranslationOps T Lang J) (env : Env T Lang J)
    (mc : mergeCommand) (locale : Locale Lang) (strs : List String) (b : Bundle T)
    (hloc : env.localeNew mc.sourceLocaleID = .ok locale)
    (hNew : ∀ id, ∃ t, ops.NewTranslation id "" = .ok t ∧ ops.ID t = id)
    (hlen : ∀ str ∈ strs, 2 ≤ str.utf8ByteSize) :
    ∃ b', insertStrings ops env mc b strs = .ok b' ∧
      (∀ j e, sourceEntry b locale.ID j = some e → sourceEntry b' locale.ID j = some e) ∧
      (∀ j e, sourceEntry b' locale.ID j = some e →
        sourceEntry b locale.ID j = some e ∨
          (sourceEntry b locale.ID j = none ∧
            ∃ str ∈ strs, sliceInner str = .ok j ∧ ops.NewTranslation j "" = .ok e)) := by
  obtain ⟨b', hrun, hframe, _, honly⟩ :=
    insertStrings_spec ops env mc locale hloc hNew strs hlen b
  exact ⟨b', hrun, hframe, honly⟩

/-- C10 at `sampleBundle` with the literals `"items"` (a plural entry of the
source catalog) and `"bye"`. -/
theorem insertStrings_keeps_existing_witness :
    ∃ b', insertStrings sampleOps sampleEnv sampleCommand sampleBundle
        ["\"items\"", "\"bye\""] = .ok b' ∧
      (∀ j e, sourceEntry sampleBundle "en" j = some e → sourceEntry b' "en" j = some e) ∧
      (∀ j e, sourceEntry b' "en" j = some e →
        sourceEntry sampleBundle "en" j = some e ∨
          (sourceEntry sampleBundle "en" j = none ∧
            ∃ str ∈ ["\"items\"", "\"bye\""],
              sliceInner str = .ok j ∧ sampleOps.NewTranslation j "" = .ok e)) :=
  insertStrings_keeps_existing sampleOps sampleEnv sampleCommand ⟨"en", "en"⟩
    ["\"items\"", "\"bye\""] sampleBundle rfl (fun _ => ⟨_, rfl, rfl⟩) (by decide)

end InsertClaims

/-! ## Quote stripping, the alias name, the output format, the "all" view -/

section TokenFormatViewClaims

variable {T Lang J : Type}

/-- C11. Quote stripping: for a string-literal token `str`, that is a string
whose first and last characters `q` and `q'` are one byte each (the quote
characters are) around the interior `mid`, the expression
`str[1:len(str)-1]` is within bounds (`len(str)` is at least 2, no panic) and
its value is exactly the interior, unchanged and not unescaped, of length
`len(str) - 2`. -/
theorem sliceInner_token (str : String) (q q' : Char) (mid : List Char)
    (hstr : str.data = q :: (mid ++ [q'])) (hq : q.utf8Size = 1) (hq' : q'.utf8Size = 1) :
    2 ≤ str.utf8ByteSize ∧
      sliceInner str = .ok (String.mk mid) ∧
      (String.mk mid).utf8ByteSize = str.utf8ByteSize - 2 := by
  obtain ⟨cs⟩ := str
  simp only at hstr
  subst hstr
  have hsize : (String.mk (q :: (mid ++ [q']))).utf8ByteSize = String.utf8Len mid + 2 := by
    simp [String.utf8ByteSize_mk, String.utf8Len_cons, String.utf8Len_append, hq, hq']
  have hext : (String.mk (q :: (mid ++ [q']))).extract ⟨1⟩ ⟨String.utf8Len mid + 2 - 1⟩ =
      String.mk mid := by
    have h := String.extract_of_valid [q] mid [q']
    simp only [String.utf8Len_cons, String.utf8Len_nil, hq, Nat.zero_add, List.singleton_append,
      List.cons_append] at h
    have hidx : String.utf8Len mid + 2 - 1 = 1 + String.utf8Len mid := by omega
    rw [hidx]
    exact h
  refine ⟨?_, ?_, ?_⟩
  · rw [hsize]
    omega
  · have hnot : ¬ String.utf8Len mid + 2 < 2 := by omega
    simp only [sliceInner, hsize, hnot, if_false]
    rw [hext]
  · rw [hsize]
    simp [String.utf8ByteSize_mk]

/-- C11 at the token `"hi"` (with its quotes). -/
theorem sliceInner_token_witness :
    2 ≤ "\"hi\"".utf8ByteSize ∧
      sliceInner "\"hi\"" = .ok (String.mk ['h', 'i']) ∧
      (String.mk ['h', 'i']).utf8ByteSize = "\"hi\"".utf8ByteSize - 2 :=
  sliceInner_token "\"hi\"" (Char.ofNat 34) (Char.ofNat 34) ['h', 'i'] (by decide) (by decide)
    (by decide)

/-- C12, evaluated at the assignment `a, t := 1, i18n.MustTfunc("en-US")`: the
factory call stands at the position of the target `t`, and `getTFuncName`
returns the name of the first target, `a`. -/
theorem getTFuncName_returns_first_target :
    factoryTarget [.Ident "a", .Ident "t"]
        [.BasicLit .INT "1",
         .CallExpr (.SelectorExpr (.Ident "i18n") "MustTfunc")
           [.BasicLit .STRING "\"en-US\""]] = some (.Ident "t") ∧
      getTFuncName [.Ident "a", .Ident "t"]
        [.BasicLit .INT "1",
         .CallExpr (.SelectorExpr (.Ident "i18n") "MustTfunc")
           [.BasicLit .STRING "\"en-US\""]] = ("a", true) := by
  constructor
  · rfl
  · decide

/-- C14. Unsupported format: `newMarshalFunc` returns the marshal function for
`"json"` and an error for every other format name; and when the format of the
command is not `"json"`, `execute` returns an error and leaves the world as it
found it: no catalog file has been loaded and no file written. -/
theorem execute_unsupported_format (ops : TranslationOps T Lang J) (env : Env T Lang J)
    (mc : mergeCommand) (w : World) (format : String)
    (hformat : mc.format ≠ "json") :
    (newMarshalFunc env "json" = .ok env.jsonMarshalIndent ∧
      (format ≠ "json" →
        newMarshalFunc env format = .error ("unsupported format: " ++ format ++ "\n")) ∧
      ((∃ f, newMarshalFunc env format = .ok f) ↔ format = "json")) ∧
    ∃ msg, execute ops env mc w = (w, .error (.error msg)) := by
  refine ⟨⟨by simp [newMarshalFunc], ?_, ?_⟩, ?_⟩
  · intro h
    simp [newMarshalFunc, h]
  · by_cases h : format = "json"
    · simp [newMarshalFunc, h]
    · simp [newMarshalFunc, h]
  · unfold execute
    by_cases hlen : mc.translationFiles.length < 1
    · exact ⟨"need at least one translation file to parse", by simp [hlen]⟩
    · cases hloc : env.localeNew mc.sourceLocaleID with
      | error err =>
        exact ⟨"invalid source locale " ++ mc.sourceLocaleID ++ ": " ++ err, by simp [hlen]⟩
      | ok locale =>
        exact ⟨"unsupported format: " ++ mc.format ++ "\n",
          by simp [hlen, newMarshalFunc, hformat]⟩

/-- C14 at the format `xml`. -/
theorem execute_unsupported_format_witness :
    ∃ msg,
      execute sampleOps sampleEnv ⟨["en.all.json"], "en", "out", "xml", "<unspecified>"⟩
        ⟨[], []⟩ = (⟨[], []⟩, .error (.error msg)) :=
  (execute_unsupported_format sampleOps sampleEnv
    ⟨["en.all.json"], "en", "out", "xml", "<unspecified>"⟩ ⟨[], []⟩ "xml" (by decide)).2

/-- C15. The "all" view is complete: it has exactly one element per entry of
the catalog, `E.Normalize(L)` for each entry `E` in iteration order, so its
length is the number of entries.  `Normalize` returns an entry; for `filter`
in general, a callback `f` that never returns nil gives one element per
entry. -/
theorem allView_complete (ops : TranslationOps T Lang J) (lang : Lang) (C : GoMap T)
    (f : T → Option T) (hf : ∀ t, f t ≠ none) :
    allView ops lang C = (GoMap.values C).map (fun E => ops.Normalize E lang) ∧
      (allView ops lang C).length = C.length ∧
      (filter C f).map some = (GoMap.values C).map f ∧
      (filter C f).length = C.length := by
  have hmap : (filter C f).map some = (GoMap.values C).map f := by
    rw [filter_eq_filterMap]
    induction C with
    | nil => rfl
    | cons p rest ih =>
      cases hp : f p.2 with
      | none => exact absurd hp (hf p.2)
      | some r =>
        simp only [GoMap.values] at ih
        simp [List.filterMap_cons, hp, GoMap.values, ih]
  refine ⟨?_, ?_, hmap, ?_⟩
  · rw [allView_eq_map]
    simp [GoMap.values, List.map_map, Function.comp_def]
  · rw [allView_eq_map, List.length_map]
  · have h := congrArg List.length hmap
    simpa [GoMap.values] using h

/-- C15 at the catalog of `fr` in `sampleBundle`, with the callback of the
"all" view as `f`. -/
theorem allView_complete_witness :
    (allView sampleOps "fr"
        [("items", (⟨"items", "single", "choses"⟩ : SampleEntry)),
         ("adieu", ⟨"adieu", "single", "Adieu"⟩)]).length = 2 :=
  (allView_complete sampleOps "fr"
    [("items", ⟨"items", "single", "choses"⟩), ("adieu", ⟨"adieu", "single", "Adieu"⟩)]
    (allCallback sampleOps "fr") (fun _ h => by simp [allCallback] at h)).2.1

end TokenFormatViewClaims

/-! ## Discovery and two-pass scanning -/

theorem collectArg_tFunc (v : visitor) (e : Expr) : (collectArg v e).tFunc = v.tFunc := by
  cases e with
  | BasicLit Kind Value =>
    by_cases h : Kind = Token.STRING
    · simp [collectArg, h]
    · simp [collectArg, h]
  | Ident Name => rfl
  | SelectorExpr X Sel => rfl
  | CallExpr Fun Args => rfl
  | Other => rfl

theorem collectArgs_tFunc (v : visitor) (Args : List Expr) :
    (collectArgs v Args).tFunc = v.tFunc := by
  induction Args generalizing v with
  | nil => rfl
  | cons e rest ih =>
    simp only [collectArgs, List.foldl_cons] at ih ⊢
    rw [ih, collectArg_tFunc]

theorem visit_tFunc_of_nonempty (v : visitor) (n : Node) (hv : v.tFunc ≠ "") :
    (v.Visit n).tFunc = v.tFunc := by
  cases n with
  | expr e =>
    cases e with
    | CallExpr Fun Args =>
      simp only [visitor.Visit]
      split
      · rfl
      · cases Fun with
        | Ident Name =>
          simp only
          split
          · exact collectArgs_tFunc v Args
          · rfl
        | BasicLit Kind Value => rfl
        | SelectorExpr X Sel => rfl
        | CallExpr Fun2 Args2 => rfl
        | Other => rfl
    | Ident Name => rfl
    | BasicLit Kind Value => rfl
    | SelectorExpr X Sel => rfl
    | Other => rfl
  | AssignStmt Lhs Rhs => simp [visitor.Visit, hv]
  | other => rfl

theorem visit_tFunc_of_empty (v : visitor) (n : Node) (hv : v.tFunc = "") :
    (v.Visit n).tFunc = (aliasOf n).getD "" := by
  cases n with
  | expr e =>
    cases e with
    | CallExpr Fun Args => simp [visitor.Visit, hv, aliasOf]
    | Ident Name => simp [visitor.Visit, hv, aliasOf]
    | BasicLit Kind Value => simp [visitor.Visit, hv, aliasOf]
    | SelectorExpr X Sel => simp [visitor.Visit, hv, aliasOf]
    | Other => simp [visitor.Visit, hv, aliasOf]
  | AssignStmt Lhs Rhs =>
    simp only [visitor.Visit, hv, aliasOf, ne_eq, not_true_eq_false, if_false]
    rcases hg : getTFuncName Lhs Rhs with ⟨name, ok⟩
    cases ok with
    | true =>
      by_cases hname : name = ""
      · simp [hname]
      · simp [hname]
    | false => simp [hv]
  | other => simp [visitor.Visit, hv, aliasOf]

theorem visit_allStrings_none (v : visitor) (n : Node) (hv : v.allStrings = none) :
    (v.Visit n).allStrings = none := by
  cases n with
  | expr e =>
    cases e with
    | CallExpr Fun Args => simp [visitor.Visit, hv]
    | Ident Name => simpa [visitor.Visit] using hv
    | BasicLit Kind Value => simpa [visitor.Visit] using hv
    | SelectorExpr X Sel => simpa [visitor.Visit] using hv
    | Other => simpa [visitor.Visit] using hv
  | AssignStmt Lhs Rhs =>
    simp only [visitor.Visit]
    split
    · exact hv
    · split
      · exact hv
      · exact hv
  | other => simpa [visitor.Visit] using hv

theorem walk_cons (v : visitor) (n : Node) (rest : List Node) :
    walk v (n :: rest) = walk (v.Visit n) rest := rfl

theorem walk_append (v : visitor) (f g : List Node) : walk v (f ++ g) = walk (walk v f) g := by
  simp [walk, List.foldl_append]

theorem walkFiles_eq_walk (v : visitor) (files : List (List Node)) :
    walkFiles v files = walk v files.flatten := by
  induction files generalizing v with
  | nil => rfl
  | cons f rest ih =>
    simp only [walkFiles, List.foldl_cons] at ih ⊢
    rw [ih, List.flatten_cons, walk_append]

theorem walk_allStrings_none (v : visitor) (nodes : List Node) (hv : v.allStrings = none) :
    (walk v nodes).allStrings = none := by
  induction nodes generalizing v with
  | nil => exact hv
  | cons n rest ih =>
    rw [walk_cons]
    exact ih _ (visit_allStrings_none v n hv)

theorem walk_tFunc_of_nonempty (v : visitor) (nodes : List Node) (hv : v.tFunc ≠ "") :
    (walk v nodes).tFunc = v.tFunc := by
  induction nodes generalizing v with
  | nil => rfl
  | cons n rest ih =>
    rw [walk_cons]
    have h := visit_tFunc_of_nonempty v n hv
    rw [ih _ (by rw [h]; exact hv), h]

theorem aliasOf_ne_empty {n : Node} {a : String} (h : aliasOf n = some a) : a ≠ "" := by
  cases n with
  | expr e => simp [aliasOf] at h
  | AssignStmt Lhs Rhs =>
    simp only [aliasOf] at h
    rcases hg : getTFuncName Lhs Rhs with ⟨name, ok⟩
    rw [hg] at h
    cases ok with
    | true =>
      by_cases hname : name = ""
      · simp [hname] at h
      · simp only [hname, if_false, Option.some.injEq] at h
        rw [← h]
        exact hname
    | false => simp at h
  | other => simp [aliasOf] at h

theorem walk_tFunc_of_empty (v : visitor) (nodes : List Node) (hv : v.tFunc = "") :
    (walk v nodes).tFunc = discoverNodes nodes := by
  induction nodes generalizing v with
  | nil => simpa [walk, discoverNodes] using hv
  | cons n rest ih =>
    rw [walk_cons]
    have h := visit_tFunc_of_empty v n hv
    cases ha : aliasOf n with
    | none =>
      rw [ha] at h
      rw [ih _ (by simpa using h)]
      simp [discoverNodes, List.findSome?_cons, ha]
    | some a =>
      rw [ha] at h
      have hne : (v.Visit n).tFunc ≠ "" := by
        rw [h]
        exact aliasOf_ne_empty ha
      rw [walk_tFunc_of_nonempty _ rest hne, h]
      simp [discoverNodes, List.findSome?_cons, ha]

theorem collect_eq_flatten (a : String) (ha : a ≠ "") (files : List (List Node)) :
    collect a files = files.flatten.flatMap (callLiterals a) := by
  simp only [collect, ha, if_false]
  induction files with
  | nil => rfl
  | cons f rest ih => simp [List.flatMap_cons, List.flatten_cons, List.flatMap_append, ih]

theorem scanFiles_eq (files : List (List Node)) :
    scanFiles files =
      if discover files = "" then { allStrings := none, tFunc := "" }
      else { allStrings := some (collect (discover files) files), tFunc := discover files } := by
  have htf : (walkFiles { allStrings := none, tFunc := "" } files).tFunc = discover files := by
    rw [walkFiles_eq_walk]
    exact walk_tFunc_of_empty _ _ rfl
  have hnone : (walkFiles { allStrings := none, tFunc := "" } files).allStrings = none := by
    rw [walkFiles_eq_walk]
    exact walk_allStrings_none _ _ rfl
  by_cases hd : discover files = ""
  · have hv : walkFiles { allStrings := none, tFunc := "" } files =
        { allStrings := none, tFunc := "" } := by
      have h1 := htf
      rw [hd] at h1
      cases hw : walkFiles { allStrings := none, tFunc := "" } files with
      | mk ss tf =>
        rw [hw] at h1 hnone
        simp only at h1 hnone
        rw [h1, hnone]
    simp [scanFiles, hv, hd]
  · simp only [scanFiles, htf, ne_eq, hd, not_false_eq_true, if_true, if_false]
    rw [walkFiles_eq_walk, walk_with_alias _ hd, collect_eq_flatten _ hd]
    simp

theorem scanPhase_eq_scanFiles {T Lang J : Type} (env : Env T Lang J) (sift : String)
    (files : List (List Node))
    (hparse : List.Forall₂ (fun name f => env.parseFile name = .ok f)
      (getAllFiles env sift) files) :
    scanPhase env sift = .ok (scanFiles files) := by
  simp only [scanPhase, parseAllFiles_eq_walkFiles env.parseFile _ _ files hparse, scanFiles]
  split
  · rfl
  · rfl

/-- C13, as stated, fails at `sampleNodesTwoAliases`: the first assignment that
matches the factory-call pattern is `obj.T = i18n.MustTfunc("en-US")`, whose
left-hand name is empty; after it the alias is still empty, and the later
matching assignment sets the alias to `t`. -/
theorem first_match_counterexample :
    firstMatchName sampleNodesTwoAliases = "" ∧
      (walk { allStrings := none, tFunc := "" } (sampleNodesTwoAliases.take 1)).tFunc = "" ∧
      (walk { allStrings := none, tFunc := "" } sampleNodesTwoAliases).tFunc = "t" ∧
      (walk { allStrings := none, tFunc := "" } sampleNodesTwoAliases).tFunc ≠
        firstMatchName sampleNodesTwoAliases := by
  decide

/-- C13, amended. First named match wins: starting from an empty alias, the
alias after the walk is the name `getTFuncName` returns for the first
assignment, in walk order, that matches the factory-call pattern with a
non-empty name (a first left-hand target that is an identifier); it is empty
when there is no such assignment; and a visitor whose alias is not empty keeps
it through every further `Visit`. -/
theorem walk_alias_first_named_match (v : visitor) (nodes : List Node) (hv : v.tFunc = "") :
    (∀ pre n post a, nodes = pre ++ n :: post → (∀ m ∈ pre, aliasOf m = none) →
        aliasOf n = some a → (walk v nodes).tFunc = a) ∧
      ((∀ m ∈ nodes, aliasOf m = none) → (walk v nodes).tFunc = "") ∧
      (∀ (u : visitor) (n : Node), u.tFunc ≠ "" → (u.Visit n).tFunc = u.tFunc) := by
  refine ⟨?_, ?_, fun u n hu => visit_tFunc_of_nonempty u n hu⟩
  · intro pre n post a hnodes hpre hn
    rw [walk_tFunc_of_empty v nodes hv, hnodes, discoverNodes, List.findSome?_append]
    have hnone : List.findSome? aliasOf pre = none := by
      rw [List.findSome?_eq_none_iff]
      exact hpre
    simp [hnone, List.findSome?_cons, hn]
  · intro hall
    rw [walk_tFunc_of_empty v nodes hv, discoverNodes]
    have hnone : List.findSome? aliasOf nodes = none := by
      rw [List.findSome?_eq_none_iff]
      exact hall
    simp [hnone]

/-- C13 amended, at `sampleNodesTwoAliases`: the alias is `t`. -/
theorem walk_alias_first_named_match_witness :
    (walk { allStrings := none, tFunc := "" } sampleNodesTwoAliases).tFunc = "t" :=
  (walk_alias_first_named_match { allStrings := none, tFunc := "" } sampleNodesTwoAliases
    rfl).1
    [.AssignStmt [.SelectorExpr (.Ident "obj") "T"]
      [.CallExpr (.SelectorExpr (.Ident "i18n") "MustTfunc") [.BasicLit .STRING "\"en-US\""]]]
    (.AssignStmt [.Ident "t"]
      [.CallExpr (.SelectorExpr (.Ident "i18n") "MustTfunc") [.BasicLit .STRING "\"en-US\""]])
    [.expr (.CallExpr (.Ident "t") [.BasicLit .STRING "\"late\""])]
    "t" rfl (by decide) (by decide)

/-- C16. Two-pass scanning is pure discovery followed by pure collection: on
files that parse, the scanner phase of `execute` ends normally with the
visitor `scanFiles files`; the discovery walk finds the alias `discover files`
and collects nothing; and the visitor at the end holds the alias
`discover files` and the list `collect (discover files) files`, the literals of
every call of the alias in all files, each once, including calls that come
before the assignment of the alias (the list is nil when no alias was
found). -/
theorem scan_two_pass_refines {T Lang J : Type} (env : Env T Lang J) (sift : String)
    (files : List (List Node))
    (hparse : List.Forall₂ (fun name f => env.parseFile name = .ok f)
      (getAllFiles env sift) files) :
    scanPhase env sift = .ok (scanFiles files) ∧
      (walkFiles { allStrings := none, tFunc := "" } files).tFunc = discover files ∧
      (walkFiles { allStrings := none, tFunc := "" } files).allStrings = none ∧
      (scanFiles files).tFunc = discover files ∧
      (scanFiles files).allStrings.getD [] = collect (discover files) files ∧
      scanFiles files =
        (if discover files = "" then { allStrings := none, tFunc := "" }
         else { allStrings := some (collect (discover files) files),
                tFunc := discover files }) := by
  refine ⟨scanPhase_eq_scanFiles env sift files hparse, ?_, ?_, ?_, ?_, scanFiles_eq files⟩
  · rw [walkFiles_eq_walk]
    exact walk_tFunc_of_empty _ _ rfl
  · rw [walkFiles_eq_walk]
    exact walk_allStrings_none _ _ rfl
  · rw [scanFiles_eq]
    by_cases hd : discover files = ""
    · simp [hd]
    · simp [hd]
  · rw [scanFiles_eq]
    by_cases hd : discover files = ""
    · simp [hd, collect]
    · simp [hd]

/-- C16 at a file whose call `T("early")` comes before the assignment of the
alias `T`: both literals are collected, each once. -/
theorem scan_two_pass_refines_witness :
    scanPhase (sampleScanEnv sampleNodesCallFirst) "main.go" =
      .ok { allStrings := some ["\"early\"", "\"late\""], tFunc := "T" } :=
  (scan_two_pass_refines (sampleScanEnv sampleNodesCallFirst) "main.go" [sampleNodesCallFirst]
    (List.Forall₂.cons rfl List.Forall₂.nil)).1

/-! ## Frame of reconciliation -/

/-- C17. Frame of reconciliation: the loop leaves the locales of the bundle
unchanged and the catalog of the source locale unchanged; in the catalog of
any locale it leaves unchanged what is held under every identifier that is not
an identifier of the source catalog, and an identifier that had an entry still
has one. -/
theorem reconcile_frame {T Lang J : Type} (ops : TranslationOps T Lang J) (S : String)
    (B : Bundle T) (L : String) (c : GoMap T) (hL : B.get L = some c) :
    GoMap.keys (reconcile ops S B) = GoMap.keys B ∧
      (reconcile ops S B).get S = B.get S ∧
      ∃ c', (reconcile ops S B).get L = some c' ∧
        (∀ j, sourceEntry B S j = none → c'.get j = c.get j) ∧
        (∀ j, c.get j ≠ none → c'.get j ≠ none) := by
  cases hS : B.get S with
  | none =>
    have h : reconcile ops S B = B := by simp [reconcile, hS]
    rw [h]
    exact ⟨rfl, hS, c, hL, fun _ _ => rfl, fun _ hj => hj⟩
  | some sc =>
    rw [reconcile_eq_mapValues ops S sc B hS]
    refine ⟨?_, ?_, reconcileCatalog ops sc sc.keys c, ?_, ?_, ?_⟩
    · simp [GoMap.keys, GoMap.mapValues, List.map_map, Function.comp_def]
    · rw [GoMap.get_mapValues, hS]
      simp [reconcileCatalog_source]
    · rw [GoMap.get_mapValues, hL]
      rfl
    · intro j hj
      have hsc : sc.get j = none := by simpa [sourceEntry, hS] using hj
      rw [get_reconcileCatalog_keys, hsc]
    · intro j hj
      rw [get_reconcileCatalog_keys]
      cases sc.get j with
      | none => exact hj
      | some src => simp

/-- C17 at `sampleBundle` and the locale `fr`. -/
theorem reconcile_frame_witness :
    GoMap.keys (reconcile sampleOps "en" sampleBundle) = GoMap.keys sampleBundle ∧
      (reconcile sampleOps "en" sampleBundle).get "en" = sampleBundle.get "en" ∧
      ∃ c', (reconcile sampleOps "en" sampleBundle).get "fr" = some c' ∧
        (∀ j, sourceEntry sampleBundle "en" j = none →
          c'.get j =
            GoMap.get [("items", (⟨"items", "single", "choses"⟩ : SampleEntry)),
              ("adieu", ⟨"adieu", "single", "Adieu"⟩)] j) ∧
        (∀ j,
          GoMap.get [("items", (⟨"items", "single", "choses"⟩ : SampleEntry)),
            ("adieu", ⟨"adieu", "single", "Adieu"⟩)] j ≠ none → c'.get j ≠ none) :=
  reconcile_frame sampleOps "en" sampleBundle "fr" _ (by decide)

end GoI18n
